import Mathlib

/-!
Verification of the Jinja-editor core (`src/utils/jinjaLinter.ts`,
`src/utils/jinjaHover.ts` and the static tables of the constants module).
The TypeScript source is shallowly embedded over `List Char`; documents are
character lists, offsets are absolute `Nat` character offsets, and every JS
regex used by the source is replaced by a hand-derived scanning function with
the same observable behaviour on all inputs (leftmost match, lazy/greedy
quantifier resolution and `g`-flag resumption are spelled out in comments at
each definition).
-/

namespace JinjaEd

/-- The character `\x7b` (left curly brace), named to keep delimiters readable. -/
def lbrace : Char := '\x7b'

/-- The character `\x7d` (right curly brace). -/
def rbrace : Char := '\x7d'

/-- The double-quote character. -/
def dquote : Char := Char.ofNat 34

/-- The single-quote character. -/
def squote : Char := Char.ofNat 39

/-- JS `\w` word characters: ASCII letters, digits and underscore. -/
def isWordChar (c : Char) : Bool := c.isAlpha || c.isDigit || c = '_'

/-- JS `\s` whitespace, restricted to the ASCII whitespace characters
(space, tab, newline, carriage return, vertical tab, form feed). -/
def isJsWs (c : Char) : Bool :=
  c = ' ' || c = '\t' || c = '\n' || c = '\r' || c = '\x0b' || c = '\x0c'

/-- Drop trailing JS whitespace. -/
def dropTrailingWs (cs : List Char) : List Char :=
  (cs.reverse.dropWhile isJsWs).reverse

/-- JS `String.prototype.trim`: strip whitespace from both ends. -/
def jsTrim (cs : List Char) : List Char :=
  dropTrailingWs (cs.dropWhile isJsWs)

/-- Lower-cased character data of a string (JS `toLowerCase`, ASCII). -/
def jsLowerData (s : String) : List Char := s.data.map Char.toLower

/-- Decimal value of a digit string (used only under an all-digits guard). -/
def digitsToNat (cs : List Char) : Nat :=
  cs.foldl (fun n c => n * 10 + (c.toNat - 48)) 0

/-- First index at which `pat` occurs as a contiguous sublist of `hay`
(JS `String.prototype.indexOf`, `none` standing for the JS result `-1`;
like in JS, the empty pattern is found at index 0). -/
def indexOfSub : List Char → List Char → Option Nat
  | hay, pat =>
    if pat.isPrefixOf hay then some 0
    else
      match hay with
      | [] => none
      | _ :: t => (indexOfSub t pat).map (· + 1)

/-- Index of the last occurrence of character `c` in `cs`. -/
def lastIndexOfChar (cs : List Char) (c : Char) : Option Nat :=
  (cs.reverse.findIdx? (· = c)).map (fun i => cs.length - 1 - i)

theorem length_dropWhile_le (p : Char → Bool) (l : List Char) :
    (l.dropWhile p).length ≤ l.length := by
  induction l with
  | nil => simp
  | cons a l ih =>
    rw [List.dropWhile_cons]
    by_cases h : p a = true
    · simp only [h, if_true]
      exact Nat.le_succ_of_le ih
    · simp only [h, if_false]
      exact Nat.le_refl _

theorem length_takeWhile_le (p : Char → Bool) (l : List Char) :
    (l.takeWhile p).length ≤ l.length := by
  induction l with
  | nil => simp
  | cons a l ih =>
    rw [List.takeWhile_cons]
    cases h : p a with
    | true =>
      simp only [h, if_true, List.length_cons]
      omega
    | false => simp [h]

/-- Helper for `jsSplitWs`.  Mode `false` accumulates the current piece
(reversed in `acc`); mode `true` is inside a whitespace separator run. -/
def jsSplitWsGo : Bool → List Char → List Char → List (List Char)
  | false, [], acc => [acc.reverse]
  | false, c :: rest, acc =>
    if isJsWs c then acc.reverse :: jsSplitWsGo true rest []
    else jsSplitWsGo false rest (c :: acc)
  | true, [], _ => [[]]
  | true, c :: rest, _ =>
    if isJsWs c then jsSplitWsGo true rest []
    else jsSplitWsGo false rest [c]

/-- JS `s.split(/\s+/)`: pieces between maximal whitespace runs; boundary
pieces are kept, so the result is never empty. -/
def jsSplitWs (cs : List Char) : List (List Char) := jsSplitWsGo false cs []

/-- A diagnostic exactly as the linter produces it: a `from`/`to` span of
absolute character offsets, a severity (always `"error"` in this code base)
and a message. -/
structure Diag where
  dFrom : Nat
  dTo : Nat
  severity : String
  message : String
deriving Repr, DecidableEq

/-- Shorthand for an error diagnostic, the only severity the source uses. -/
def err (a b : Nat) (m : String) : Diag := ⟨a, b, "error", m⟩

mutual
/-- A JavaScript value as it can occur inside the variable tree handed to the
linter and the completion engine: a string leaf, a number, a boolean, `null`,
a plain object (its own enumerable entries in insertion order, as a `JFields`
list) or an array (a `JElems` list).  The two list types are part of the
mutual block so that tree traversals are structurally recursive. -/
inductive JValue where
  | vstr : String → JValue
  | vnum : Int → JValue
  | vbool : Bool → JValue
  | vnull : JValue
  | vobj : JFields → JValue
  | varr : JElems → JValue
inductive JFields where
  | fnil : JFields
  | fcons : String → JValue → JFields → JFields
inductive JElems where
  | enil : JElems
  | econs : JValue → JElems → JElems
end

/-- Build an entry list from a Lean list of pairs (for readable inputs). -/
def jfOf : List (String × JValue) → JFields
  | [] => .fnil
  | (k, v) :: rest => .fcons k v (jfOf rest)

/-- Number of entries of an object, JS `Object.keys(o).length`. -/
def jfLen : JFields → Nat
  | .fnil => 0
  | .fcons _ _ rest => jfLen rest + 1

/-- First value bound to a key (JS own-property read on a plain object;
keys of an object are unique, so first match is the value). -/
def lookupF : JFields → String → Option JValue
  | .fnil, _ => none
  | .fcons k v rest, key => if k = key then some v else lookupF rest key

/-- Length of an array. -/
def jeLen : JElems → Nat
  | .enil => 0
  | .econs _ rest => jeLen rest + 1

/-- Indexing into an array. -/
def jeGet : JElems → Nat → Option JValue
  | .enil, _ => none
  | .econs v _, 0 => some v
  | .econs _ rest, n + 1 => jeGet rest n

/-- JS truthiness of a `JValue` (`""`, `0`, `false` and `null` are falsy;
every object and array is truthy). -/
def JValue.truthy : JValue → Bool
  | .vstr s => !(s = "")
  | .vnum n => !(n = 0)
  | .vbool b => b
  | .vnull => false
  | .vobj _ => true
  | .varr _ => true

/-- JS `typeof` rendered as a string (`typeof null` is `"object"`). -/
def JValue.typeofStr : JValue → String
  | .vstr _ => "string"
  | .vnum _ => "number"
  | .vbool _ => "boolean"
  | .vnull => "object"
  | .vobj _ => "object"
  | .varr _ => "object"

/-- A variable tree as supplied to the factories: the own enumerable entries
of the `templateVariables` object. -/
abbrev VarTree := JFields

/-- Own-key membership, JS `Object.prototype.hasOwnProperty`. -/
def hasKey (tv : VarTree) (key : String) : Bool := (lookupF tv key).isSome

/-! ## Mixed-delimiter pass

The source scans the raw text with four global regexes, pushing one
diagnostic per match, pattern after pattern:
`/{{%|%}}/g`, `/{{\s*%|%\s*}}/g`, `/{#%|%#}/g`, `/{%#|#%}/g`.
Each is embedded as a `matchAt` function giving the match length at the head
of a suffix, and a generic scanner reproducing the `exec` loop (leftmost
match at or after `lastIndex`, which then advances past the match). -/

/-- Match length of `/{{%|%}}/` at the head of the suffix. -/
def p1MatchAt : List Char → Option Nat
  | c1 :: c2 :: c3 :: _ =>
    if c1 = lbrace && c2 = lbrace && c3 = '%' then some 3
    else if c1 = '%' && c2 = rbrace && c3 = rbrace then some 3
    else none
  | _ => none

/-- Length of the maximal whitespace run at the head. -/
def wsRun (cs : List Char) : Nat := (cs.takeWhile isJsWs).length

/-- Match length of `/{{\s*%|%\s*}}/` at the head of the suffix.  The greedy
`\s*` with backtracking is equivalent to skipping the maximal whitespace run
and then requiring the literal tail, because the required next character is
never itself whitespace. -/
def p2MatchAt : List Char → Option Nat
  | c1 :: c2 :: rest =>
    if c1 = lbrace && c2 = lbrace then
      let w := wsRun rest
      if (rest.drop w).head? = some '%' then some (2 + w + 1) else none
    else if c1 = '%' then
      let tail := c2 :: rest
      let w := wsRun tail
      match tail.drop w with
      | d1 :: d2 :: _ => if d1 = rbrace && d2 = rbrace then some (1 + w + 2) else none
      | _ => none
    else none
  | _ => none

/-- Match length of `/{#%|%#}/` at the head of the suffix. -/
def p3MatchAt : List Char → Option Nat
  | c1 :: c2 :: c3 :: _ =>
    if c1 = lbrace && c2 = '#' && c3 = '%' then some 3
    else if c1 = '%' && c2 = '#' && c3 = rbrace then some 3
    else none
  | _ => none

/-- Match length of `/{%#|#%}/` at the head of the suffix. -/
def p4MatchAt : List Char → Option Nat
  | c1 :: c2 :: c3 :: _ =>
    if c1 = lbrace && c2 = '%' && c3 = '#' then some 3
    else if c1 = '#' && c2 = '%' && c3 = rbrace then some 3
    else none
  | _ => none

/-- The `while ((match = regex.exec(text)) !== null)` loop for a `g`-flag
regex: repeatedly find the leftmost match at or after the current position
and resume right after it.  `i` is the absolute offset of the current suffix
and `skip` counts characters still to be stepped over from the previous
match (so the recursion is structural on the text). -/
def scanPatGo (matchAt : List Char → Option Nat) : Nat → Nat → List Char → List (Nat × Nat)
  | _, _, [] => []
  | skip + 1, i, _ :: rest => scanPatGo matchAt skip (i + 1) rest
  | 0, i, c :: rest =>
    match matchAt (c :: rest) with
    | some n => (i, i + n) :: scanPatGo matchAt (n - 1) (i + 1) rest
    | none => scanPatGo matchAt 0 (i + 1) rest

/-- Scan a whole text with a pattern from offset `i`. -/
def scanPat (matchAt : List Char → Option Nat) (i : Nat) (cs : List Char) :
    List (Nat × Nat) :=
  scanPatGo matchAt 0 i cs

/-- Diagnostics of the mixed-delimiter pass, in source order (all matches of
pattern 1, then of pattern 2, 3, 4). -/
def mixedDiags (cs : List Char) : List Diag :=
  ((scanPat p1MatchAt 0 cs) ++ (scanPat p2MatchAt 0 cs) ++
   (scanPat p3MatchAt 0 cs) ++ (scanPat p4MatchAt 0 cs)).map
    (fun p => err p.1 p.2 "Mixed delimiter syntax")

/-! ## Block parsing pass

The source matches `/({[%{#])(.*?)([%}#]}|$)/gs` over the whole text.  With
the lazy content group this finds, from each opener `{`+(`%`/`{`/`#`), the
shortest content followed by the first two-character closer (a character in
`%}#` followed by a brace), or runs to end-of-input with an empty closer
capture. -/

/-- One raw regex match of the block pattern: absolute start offset, the
second opener character, the raw (untrimmed) content, and the first closer
character (`none` when the match ran to end-of-input, i.e. the `$`
alternative fired and the closer capture is empty). -/
structure BMatch where
  bstart : Nat
  opener : Char
  rawContent : List Char
  closerFirst : Option Char
deriving Repr, DecidableEq

/-- Absolute end offset of a raw block match. -/
def BMatch.bend (m : BMatch) : Nat :=
  m.bstart + 2 + m.rawContent.length + (if m.closerFirst.isSome then 2 else 0)

/-- Split a suffix at the first two-character closer (`%}`, `}}` or `#}`):
returns the content before it, the closer's first character, and the rest
after the closer. -/
def splitAtCloser : List Char → Option (List Char × Char × List Char)
  | [] => none
  | c :: rest =>
    if (c = '%' || c = rbrace || c = '#') && rest.head? = some rbrace then
      some ([], c, rest.tail)
    else
      (splitAtCloser rest).map (fun r => (c :: r.1, r.2.1, r.2.2))

theorem splitAtCloser_length : ∀ {cs : List Char} {r : List Char × Char × List Char},
    splitAtCloser cs = some r → cs.length = r.1.length + 2 + r.2.2.length := by
  intro cs
  induction cs with
  | nil => intro r h; simp [splitAtCloser] at h
  | cons x xs ih =>
    intro r h
    rw [splitAtCloser] at h
    split at h
    · rename_i hcond
      rw [Bool.and_eq_true] at hcond
      have h2 : xs.head? = some rbrace := of_decide_eq_true hcond.2
      cases xs with
      | nil => simp at h2
      | cons y ys =>
        injection h with h'
        subst h'
        simp only [List.length_cons, List.length_nil, List.tail_cons]
        omega
    · cases hs : splitAtCloser xs with
      | none => rw [hs] at h; simp at h
      | some r' =>
        rw [hs] at h
        simp only [Option.map] at h
        injection h with h'
        subst h'
        have := ih hs
        simp only [List.length_cons]
        omega

/-- The full `exec` loop of the block regex: scan for an opener (`{` followed
by `%`, `{` or `#`); on an opener, lazily take content up to the first
two-character closer (resuming after it), or to end-of-input with no closer
(after which the loop terminates, since `lastIndex` is then at the end).
`skip` counts characters of the previous match still to be stepped over,
making the recursion structural on the text: a closed match of content
length `n` occupies `4 + n` characters, of which one is consumed by the
step itself. -/
def scanBlocksGo : Nat → Nat → List Char → List BMatch
  | _, _, [] => []
  | skip + 1, i, _ :: rest => scanBlocksGo skip (i + 1) rest
  | 0, i, c :: rest =>
    if c = lbrace then
      match rest with
      | d :: rest2 =>
        if d = '%' || d = lbrace || d = '#' then
          match splitAtCloser rest2 with
          | some r =>
            ⟨i, d, r.1, some r.2.1⟩ :: scanBlocksGo (3 + r.1.length) (i + 1) rest
          | none => [⟨i, d, rest2, none⟩]
        else scanBlocksGo 0 (i + 1) rest
      | [] => []
    else scanBlocksGo 0 (i + 1) rest

/-- Scan a whole text for block matches starting at offset `i`. -/
def scanBlocks (i : Nat) (cs : List Char) : List BMatch := scanBlocksGo 0 i cs

/-- Block kinds, keyed by the opener. -/
inductive BType where
  | expression
  | statement
  | comment
deriving Repr, DecidableEq

/-- A parsed block as the source stores it: kind, absolute span, and the
trimmed content (the source keeps only the trimmed content, which is what
makes later `indexOf`-based offset arithmetic drift when the raw content had
leading whitespace). -/
structure JBlock where
  btype : BType
  bstart : Nat
  bend : Nat
  content : List Char
deriving Repr, DecidableEq

/-- Expected first closer character for an opener character. -/
def expectedCloserFirst (d : Char) : Char :=
  if d = lbrace then rbrace else if d = '%' then '%' else '#'

/-- Render a closer as the two-character string used in messages. -/
def closerString (c : Char) : String := String.mk [c, rbrace]

/-- Block kind determined by the opener character. -/
def btypeOf (d : Char) : BType :=
  if d = lbrace then .expression else if d = '%' then .statement else .comment

/-- Phase 2 of the linter: turn raw matches into "Unclosed block" /
"Expected ... but found ..." diagnostics and the list of valid blocks, in
scan order. -/
def blockPhase : List BMatch → List Diag × List JBlock
  | [] => ([], [])
  | m :: ms =>
    let r := blockPhase ms
    match m.closerFirst with
    | none => (err m.bstart m.bend "Unclosed block" :: r.1, r.2)
    | some cl =>
      let expc := expectedCloserFirst m.opener
      if cl ≠ expc then
        (err (m.bend - 2) m.bend
          ("Expected '" ++ closerString expc ++ "' but found '" ++ closerString cl ++ "'")
          :: r.1, r.2)
      else
        (r.1, ⟨btypeOf m.opener, m.bstart, m.bend, jsTrim m.rawContent⟩ :: r.2)

/-! ## Tag-balance pass -/

/-- A stack entry for a currently open block tag. -/
structure StackTag where
  tag : String
  position : Nat
  fullContent : List Char
deriving Repr, DecidableEq

/-- The fixed opening-tag keywords. -/
def blockTags : List String :=
  ["if", "for", "block", "macro", "raw", "with", "filter", "call", "set",
   "trans", "autoescape"]

/-- The fixed closing-tag keywords. -/
def endTags : List String :=
  ["endif", "endfor", "endblock", "endmacro", "endraw", "endwith",
   "endfilter", "endcall", "endset", "endtrans", "endautoescape"]

/-- The static typo table, verbatim from the source (`endfi` is listed
twice there, so it is listed twice here). -/
def commonTypos : List (String × String) :=
  [("esle", "else"), ("esli", "elif"), ("fro", "for"), ("ofr", "for"),
   ("fi", "if"), ("endfi", "endif"), ("enffor", "endfor"),
   ("endofr", "endfor"), ("endfi", "endif")]

/-- Typo diagnostics for one statement block.  The source computes the word
start as `block.start + opener.length + content.indexOf(typo)` where
`content` is the trimmed content; `indexOf` never misses here because the
trimmed content begins with its first word, so the `getD 0` default is
unreachable. -/
def typoDiagsFor (b : JBlock) (firstWord : List Char) : List Diag :=
  commonTypos.filterMap (fun tc =>
    if firstWord = tc.1.data then
      let j := (indexOfSub b.content tc.1.data).getD 0
      some (err (b.bstart + 2 + j) (b.bstart + 2 + j + tc.1.length)
        ("Did you mean '" ++ tc.2 ++ "'?"))
    else none)

/-- Process one block in the tag-balance pass: returns the new stack and the
diagnostics this block contributes (typo diagnostics first, as in the
source).  The stack is a JS array: push appends, the top is the last
element. -/
def tagStepB (st : List StackTag) (b : JBlock) : List StackTag × List Diag :=
  if b.btype = BType.statement then
    let firstWord := (jsSplitWs b.content).headD []
    let fw : String := String.mk firstWord
    let tds := typoDiagsFor b firstWord
    if blockTags.contains fw then
      (st ++ [⟨fw, b.bstart, b.content⟩], tds)
    else if endTags.contains fw then
      let expectedTag := String.mk (firstWord.drop 3)
      match st.getLast? with
      | none =>
        (st, tds ++ [err b.bstart b.bend
          ("Unexpected '" ++ fw ++ "' - no matching opening tag")])
      | some lastTag =>
        if lastTag.tag ≠ expectedTag then
          (st, tds ++ [err b.bstart b.bend
            ("Expected 'end" ++ lastTag.tag ++ "' but found '" ++ fw ++ "'")])
        else (st.dropLast, tds)
    else if ("end".data).isPrefixOf firstWord then
      let j := (indexOfSub b.content firstWord).getD 0
      (st, tds ++ [err (b.bstart + 2 + j) (b.bstart + 2 + j + firstWord.length)
        ("Invalid end tag '" ++ fw ++ "'")])
    else (st, tds)
  else (st, [])

/-- The tag-balance pass over all blocks: final stack and diagnostics in
document order. -/
def tagGo : List JBlock → List StackTag → List Diag → List StackTag × List Diag
  | [], st, ds => (st, ds)
  | b :: bs, st, ds =>
    let r := tagStepB st b
    tagGo bs r.1 (ds ++ r.2)

/-- The tag-balance pass over all blocks, starting from the empty stack. -/
def tagPhase (bs : List JBlock) : List StackTag × List Diag := tagGo bs [] []

/-- End-of-scan report of still-open tags, bottom of the stack first (the
source iterates the stack array in insertion order).  The span is
`position + trimmedContent.length + 4`. -/
def unclosedDiags (st : List StackTag) : List Diag :=
  st.map (fun t =>
    err t.position (t.position + t.fullContent.length + 4)
      ("Unclosed '" ++ t.tag ++ "' tag - missing 'end" ++ t.tag ++ "'"))

/-! ## Structural pass (quotes and brackets) -/

/-- Unmatched-quote check for one quote character: an odd number of
occurrences flags the last occurrence.  The `none` branch mirrors a JS
access that would throw; it is unreachable because an odd count implies an
occurrence (see `lintChecked_eq`). -/
def quoteDiag (b : JBlock) (q : Char) : List Diag :=
  if b.content.count q % 2 ≠ 0 then
    match lastIndexOfChar b.content q with
    | some j =>
      [err (b.bstart + 2 + j) (b.bstart + 2 + j + 1)
        ("Unmatched " ++ String.mk [q] ++ " quote")]
    | none => []
  else []

/-- Left-to-right bracket scan of one content: `i` is the current index,
`depth` the current nesting depth (the JS counter only ever dips below zero
transiently before being reset, so a natural number with an explicit
zero-depth case is equivalent), `lu` the index of the first opener of the
current unmatched run (`none` standing for the JS initial `-1`). -/
def bracketGo (o c : Char) (cst : Nat) (nm : String) :
    Nat → Nat → Option Nat → List Diag → List Char → Nat × Option Nat × List Diag
  | _, depth, lu, ds, [] => (depth, lu, ds)
  | i, depth, lu, ds, x :: xs =>
    if x = o then
      bracketGo o c cst nm (i + 1) (depth + 1)
        (if depth + 1 = 1 then some i else lu) ds xs
    else if x = c then
      if depth = 0 then
        bracketGo o c cst nm (i + 1) 0 lu
          (ds ++ [err (cst + i) (cst + i + 1) ("Unexpected closing " ++ nm)]) xs
      else bracketGo o c cst nm (i + 1) (depth - 1) lu ds xs
    else bracketGo o c cst nm (i + 1) depth lu ds xs

/-- Bracket diagnostics for one block and one bracket pair.  When depth is
still positive at the end the source reads `lastUnmatched`; the `none`
branch reproduces the JS arithmetic `contentStart + (-1)` (it is
unreachable, since positive depth means some opener was seen). -/
def bracketDiags (b : JBlock) (o c : Char) (nm : String) : List Diag :=
  let cst := b.bstart + 2
  let r := bracketGo o c cst nm 0 0 none [] b.content
  r.2.2 ++
    (if r.1 > 0 then
      match r.2.1 with
      | some j => [err (cst + j) (cst + j + 1) ("Unmatched opening " ++ nm)]
      | none => [err (cst - 1) cst ("Unmatched opening " ++ nm)]
    else [])

/-- Structural diagnostics for one block: quotes (double then single), then
the three bracket pairs, exactly in source order. -/
def structuralDiags (b : JBlock) : List Diag :=
  quoteDiag b dquote ++ quoteDiag b squote ++
  bracketDiags b '(' ')' "parenthesis" ++
  bracketDiags b '[' ']' "bracket" ++
  bracketDiags b lbrace rbrace "brace"

/-! ## Undefined-variable pass -/

/-- Characters before the first `.` (JS `s.split('.')[0]`). -/
def rootOf (cs : List Char) : List Char := cs.takeWhile (· ≠ '.')

/-- The literal test `/^(\d+(\.\d+)?|true|false|none)$/i`. -/
def isLiteralExpr (cs : List Char) : Bool :=
  let digits := cs.takeWhile Char.isDigit
  let rest := cs.drop digits.length
  let isNum :=
    decide (digits ≠ []) &&
      (decide (rest = []) ||
        (rest.head? = some '.' && decide (rest.tail ≠ []) &&
          rest.tail.all Char.isDigit))
  let low := String.mk (cs.map Char.toLower)
  isNum || decide (low = "true") || decide (low = "false") || decide (low = "none")

/-- Undefined-variable diagnostics for one expression block.  As in the
source: strip the filter chain at the first `|`, trim, skip complex
expressions / literals / builtins, then flag a root identifier that is not a
top-level key of a non-empty variable tree.  `indexOf` finds the root at
offset 0 because the trimmed content starts with it; the `getD 0` default is
unreachable. -/
def undefinedVarDiags (tv : VarTree) (b : JBlock) : List Diag :=
  let content := b.content
  let baseExpr := jsTrim (content.takeWhile (· ≠ '|'))
  if baseExpr.contains '[' || baseExpr.contains dquote || baseExpr.contains squote ||
      baseExpr.contains '(' || baseExpr.contains ' ' || isLiteralExpr baseExpr ||
      (["loop", "super"].contains (String.mk (rootOf baseExpr))) then
    []
  else
    let varName := rootOf baseExpr
    if decide (varName ≠ []) && decide (jfLen tv > 0) &&
        !(hasKey tv (String.mk varName)) then
      let varStart := (indexOfSub content varName).getD 0
      [err (b.bstart + 2 + varStart) (b.bstart + 2 + varStart + varName.length)
        ("Undefined variable '" ++ String.mk varName ++ "'")]
    else []

/-! ## The linter -/

/-- The linter returned by `createJinjaLinter(templateVariables)`, as a pure
function of the document text: the five passes of the source, their
diagnostics concatenated in source order (mixed delimiters, block parsing,
tag balance, unclosed tags, structural checks, undefined variables). -/
def jinjaLinter (tv : VarTree) (text : List Char) : List Diag :=
  let mixed := mixedDiags text
  let pr := blockPhase (scanBlocks 0 text)
  let tr := tagPhase pr.2
  mixed ++ pr.1 ++ tr.2 ++ unclosedDiags tr.1 ++
    (pr.2.map structuralDiags).flatten ++
    ((pr.2.filter (fun b => b.btype = BType.expression)).map
      (undefinedVarDiags tv)).flatten

/-! ## Exception-checked linter

To settle that the linter never throws, the two places where the JS could in
principle throw a `TypeError` are mirrored with `Option`:
`words[0]` would be `undefined` if `split` returned an empty array (the
later `firstWord.startsWith` would then throw), and
`quoteMatches[quoteMatches.length - 1].index!` would throw if an odd count
came with no occurrence.  (The stack-top access is guarded by an explicit
`length === 0` check in the source and is embedded as a total match; the
`lastUnmatched` read is plain arithmetic in JS and cannot throw.)
`lintChecked_eq` below proves the checked linter always returns `some` of
the total embedding's result. -/

/-- `tagStepB` with the `words[0]` access checked. -/
def tagStepBChecked (st : List StackTag) (b : JBlock) :
    Option (List StackTag × List Diag) :=
  if b.btype = BType.statement then
    match jsSplitWs b.content with
    | [] => none
    | _ :: _ => some (tagStepB st b)
  else some (st, [])

def tagGoChecked : List JBlock → List StackTag → List Diag →
    Option (List StackTag × List Diag)
  | [], st, ds => some (st, ds)
  | b :: bs, st, ds =>
    match tagStepBChecked st b with
    | none => none
    | some r => tagGoChecked bs r.1 (ds ++ r.2)

/-- `quoteDiag` with the last-occurrence access checked. -/
def quoteDiagChecked (b : JBlock) (q : Char) : Option (List Diag) :=
  if b.content.count q % 2 ≠ 0 then
    match lastIndexOfChar b.content q with
    | some j =>
      some [err (b.bstart + 2 + j) (b.bstart + 2 + j + 1)
        ("Unmatched " ++ String.mk [q] ++ " quote")]
    | none => none
  else some []

/-- `structuralDiags` with the quote accesses checked. -/
def structuralDiagsChecked (b : JBlock) : Option (List Diag) :=
  match quoteDiagChecked b dquote with
  | none => none
  | some q1 =>
    match quoteDiagChecked b squote with
    | none => none
    | some q2 =>
      some (q1 ++ q2 ++
        bracketDiags b '(' ')' "parenthesis" ++
        bracketDiags b '[' ']' "bracket" ++
        bracketDiags b lbrace rbrace "brace")

def structListChecked : List JBlock → Option (List (List Diag))
  | [] => some []
  | b :: bs =>
    match structuralDiagsChecked b with
    | none => none
    | some d => (structListChecked bs).map (d :: ·)

/-- The linter with every JS access that could throw modelled as `Option`:
`none` exactly where the source would raise. -/
def jinjaLinterChecked (tv : VarTree) (text : List Char) : Option (List Diag) :=
  let mixed := mixedDiags text
  let pr := blockPhase (scanBlocks 0 text)
  match tagGoChecked pr.2 [] [] with
  | none => none
  | some tr =>
    match structListChecked pr.2 with
    | none => none
    | some sds =>
      some (mixed ++ pr.1 ++ tr.2 ++ unclosedDiags tr.1 ++ sds.flatten ++
        ((pr.2.filter (fun b => b.btype = BType.expression)).map
          (undefinedVarDiags tv)).flatten)

/-! ## Context resolution (`getJinjaContext`) -/

/-- Start offset of the line containing `pos` (CodeMirror `doc.lineAt(pos).from`):
one past the last newline strictly before `pos`, or `0`. -/
def lineStartAt (text : List Char) (pos : Nat) : Nat :=
  match ((text.take pos).reverse.findIdx? (· = '\n')) with
  | some i => (text.take pos).length - i
  | none => 0

/-- Decomposition of the line prefix by `/.*?(\{+)([%#]?)(\w*)$/`: the match
exists iff the line prefix ends in a nonempty brace run, optionally one `%`
or `#`, then word characters.  Returns the brace-run length, the optional
delimiter character, the trailing word, and the index of the brace run in
the line prefix. -/
def getIncomplete (lineText : List Char) : Option (Nat × Option Char × List Char × Nat) :=
  let rev := lineText.reverse
  let word := (rev.takeWhile isWordChar).reverse
  let rest := rev.drop word.length
  let dl : Option Char × List Char :=
    match rest with
    | c :: t => if c = '%' || c = '#' then (some c, t) else (none, rest)
    | [] => (none, [])
  let braceRun := dl.2.takeWhile (· = lbrace)
  if braceRun.isEmpty then none
  else
    some (braceRun.length, dl.1, word,
      lineText.length - word.length - (if dl.1.isSome then 1 else 0) - braceRun.length)

/-- The block-context match `/.*?({%|{{|{#)\s*([^}%#]*)$/` on the line
prefix: the leftmost opener such that everything after it contains none of
`}`, `%`, `#`; the content capture starts after the greedy `\s*`. -/
def findBlockMatch : List Char → Option (Char × List Char)
  | [] => none
  | c :: rest =>
    match rest with
    | d :: rest2 =>
      if c = lbrace && (d = '%' || d = lbrace || d = '#') &&
          rest2.all (fun x => !(x = rbrace || x = '%' || x = '#')) then
        some (d, rest2.dropWhile isJsWs)
      else findBlockMatch rest
    | [] => none

/-- Worker for `dottedPathBack`, structural on the reversed input.  `seg` is
the word segment being collected (in normal order) and `path` the completed
dotted tail to its right (in normal order, starting with `.` when
nonempty).  A dot extends the path only when a word character follows it. -/
def dpGo : List Char → List Char → List Char → List Char
  | [], seg, path => seg ++ path
  | c :: rest, seg, path =>
    if isWordChar c then dpGo rest (c :: seg) path
    else if c = '.' && !seg.isEmpty then
      match rest with
      | d :: _ =>
        if isWordChar d then dpGo rest [] ('.' :: (seg ++ path))
        else seg ++ path
      | [] => seg ++ path
    else seg ++ path

/-- Maximal suffix of (the reverse of) a character list that matches
`\w+(\.\w+)*`, returned in normal order.  Empty when there is none. -/
def dottedPathBack (rev : List Char) : List Char := dpGo rev [] []

/-- The dot-notation match
`/(\w+(?:\.\w+)*)\.\s*$|(\w+(?:\.\w+)*)\.(\w*)$/` against a content: a
trailing dotted identifier followed by a dot and either trailing whitespace
(first alternative; `prefix` empty) or a trailing partial word (second
alternative).  Both alternatives agree when both tails are empty, and the
first is preferred, exactly as JS alternation does. -/
def dotPathMatch (content : List Char) : Option (String × String) :=
  let rev := content.reverse
  let wsTail := rev.takeWhile isJsWs
  let alt1 :=
    match rev.drop wsTail.length with
    | c :: rest =>
      if c = '.' then
        let p := dottedPathBack rest
        if p.isEmpty then none else some (String.mk p, "")
      else none
    | [] => none
  match alt1 with
  | some r => some r
  | none =>
    let wTail := rev.takeWhile isWordChar
    match rev.drop wTail.length with
    | c :: rest =>
      if c = '.' then
        let p := dottedPathBack rest
        if p.isEmpty then none else some (String.mk p, String.mk wTail.reverse)
      else none
    | [] => none

/-- A resolved Jinja context, with the optional fields of the source's
record represented as `Option` (absent = `none`). -/
structure JinjaContext where
  ctype : String
  pfx : String
  hasClosing : Option Bool
  objectPath : Option String
  replaceStart : Option Nat
  replaceEnd : Option Nat
deriving Repr, DecidableEq

/-- The part of `getJinjaContext` after the incomplete-opener checks. -/
def blockContext (lineText afterText : List Char) : JinjaContext :=
  match findBlockMatch lineText with
  | some dm =>
    let hasCl := afterText.any (fun c => c = rbrace || c = '#')
    match (if dm.1 = lbrace then dotPathMatch dm.2 else none) with
    | some pr => ⟨"property_access", pr.2, some hasCl, some pr.1, none, none⟩
    | none =>
      ⟨if dm.1 = '%' then "statement"
        else if dm.1 = lbrace then "expression" else "comment",
        String.mk (jsTrim dm.2), some hasCl, none, none, none⟩
  | none => ⟨"none", "", none, none, none, none⟩

/-- `getJinjaContext(doc, pos)`: classify what the cursor at `pos` is inside,
from the line prefix up to `pos` and a 50-character lookahead window. -/
def getJinjaContext (text : List Char) (pos : Nat) : JinjaContext :=
  let lineStart := lineStartAt text pos
  let lineText := (text.take pos).drop lineStart
  let afterText := (text.drop pos).take 50
  match getIncomplete lineText with
  | some q =>
    if q.1 = 1 && q.2.1.isNone && !q.2.2.1.isEmpty then
      ⟨"partial", String.mk q.2.2.1, none, none, some (lineStart + q.2.2.2), some pos⟩
    else if q.1 = 1 && q.2.1.isNone && q.2.2.1.isEmpty then
      ⟨"partial", "", none, none, some (lineStart + q.2.2.2), some pos⟩
    else blockContext lineText afterText
  | none => blockContext lineText afterText

/-! ## Variable-tree completions -/

/-- A completion candidate (`label`, `type`, insertion text, `detail`).  The
three block-starter candidates of the source carry an `apply` function that
inserts `"{{ }}"` / `"{% %}"` / `"{# #}"` and places the cursor after the
opener; here `apply` holds that inserted text. -/
structure CompletionItem where
  label : String
  type : String
  apply : String
  detail : String
deriving Repr, DecidableEq

/-- The detail string the source computes for a value
(`typeof value === 'string' ? value : isObject ? "Object with N properties"
: Array.isArray(value) ? 'Array' : typeof value`). -/
def detailFor : JValue → String
  | .vstr s => s
  | .vobj fs => "Object with " ++ toString (jfLen fs) ++ " properties"
  | .varr _ => "Array"
  | v => v.typeofStr

/-- JS `s.split('.')`. -/
def jsSplitDot (s : String) : List String :=
  (s.data.splitOnP (· = '.')).map String.mk

/-- Number of path segments, JS `s.split('.').length`. -/
def dotSegCount (s : String) : Nat := (jsSplitDot s).length

mutual
/-- One entry of `generateVariableCompletions` in the empty-`currentPath`
branch: an object value contributes its own candidate and, recursively, its
flattened children; any other value contributes one candidate. -/
def genVarCompsEntry : String → String → String → JValue → List CompletionItem
  | key, fullPath, currentPath, .vobj fs =>
    ⟨key, "variable", fullPath,
      "Object with " ++ toString (jfLen fs) ++ " properties"⟩ ::
      genVarCompsF fs fullPath currentPath
  | key, fullPath, _, v => [⟨key, "variable", fullPath, detailFor v⟩]

/-- `generateVariableCompletions(obj, prefix, currentPath)`: depth-first
flattening of the variable tree.  The `currentPath` branch is embedded as in
the source even though every call site passes `''`. -/
def genVarCompsF : JFields → String → String → List CompletionItem
  | .fnil, _, _ => []
  | .fcons key value rest, pfx, currentPath =>
    let fullPath := if pfx = "" then key else pfx ++ "." ++ key
    let entry : List CompletionItem :=
      if currentPath ≠ "" then
        if (((currentPath ++ ".").data).isPrefixOf fullPath.data) &&
            dotSegCount fullPath = dotSegCount currentPath + 1 then
          [⟨key, (match value with | .vobj _ => "variable" | _ => "property"),
            key, detailFor value⟩]
        else []
      else genVarCompsEntry key fullPath currentPath value
    entry ++ genVarCompsF rest pfx currentPath
end

/-- Entry point matching the source's call sites. -/
def genVarComps (fields : JFields) (pfx currentPath : String) :
    List CompletionItem :=
  genVarCompsF fields pfx currentPath

/-- Own-property lookup `current[part]` for the values walked by
`getPropertyCompletions`: association lookup on objects; canonical numeric
indices and `length` on arrays; nothing on primitives (the walk's `typeof`
guard rejects primitives before any such access matters). -/
def JValue.getProp : JValue → String → Option JValue
  | .vobj fs, k => lookupF fs k
  | .varr es, k =>
    if k = "length" then some (.vnum (jeLen es))
    else if k.data ≠ [] && k.data.all Char.isDigit &&
        (k = "0" || k.data.head? ≠ some '0') then
      jeGet es (digitsToNat k.data)
    else none
  | _, _ => none

/-- The walk loop of `getPropertyCompletions`: advance while the current
value is a truthy object and the next segment maps to a truthy value. -/
def walkParts : JValue → List String → Option JValue
  | cur, [] => some cur
  | cur, p :: ps =>
    if cur.truthy && cur.typeofStr = "object" &&
        ((cur.getProp p).map JValue.truthy).getD false then
      match cur.getProp p with
      | some v => walkParts v ps
      | none => none
    else none

/-- `getPropertyCompletions(obj, objectPath)`: walk the dotted path and list
the children of the final node when it is a non-array object. -/
def propItemsOf : JFields → List CompletionItem
  | .fnil => []
  | .fcons k v rest =>
    ⟨k, (match v with | .vobj _ => "variable" | _ => "property"),
      k, detailFor v⟩ :: propItemsOf rest

/-- `getPropertyCompletions(obj, objectPath)`: walk the dotted path and list
the children of the final node when it is a non-array object. -/
def getPropertyCompletions (tv : VarTree) (objectPath : String) : List CompletionItem :=
  match walkParts (.vobj tv) (jsSplitDot objectPath) with
  | some (.vobj fs) => propItemsOf fs
  | _ => []

/-! ## Static completion tables (constants module) -/

/-- `statementCompletions`: keyword candidates for `{% %}` blocks. -/
def statementCompletions : List CompletionItem :=
  [⟨"if", "keyword", "if $0", "Conditional statement"⟩,
   ⟨"for", "keyword", "for $0 in $1", "Loop statement"⟩,
   ⟨"set", "keyword", "set $0 = $1", "Variable assignment"⟩,
   ⟨"block", "keyword", "block $0", "Template block"⟩,
   ⟨"extends", "keyword", "extends '$0'", "Template inheritance"⟩,
   ⟨"include", "keyword", "include '$0'", "Include template"⟩,
   ⟨"macro", "keyword", "macro $0()", "Macro definition"⟩,
   ⟨"raw", "keyword", "raw", "Raw content block"⟩,
   ⟨"with", "keyword", "with $0", "Context block"⟩,
   ⟨"endif", "keyword", "endif", "End if"⟩,
   ⟨"endfor", "keyword", "endfor", "End for"⟩,
   ⟨"endblock", "keyword", "endblock", "End block"⟩,
   ⟨"endmacro", "keyword", "endmacro", "End macro"⟩,
   ⟨"endraw", "keyword", "endraw", "End raw"⟩,
   ⟨"endwith", "keyword", "endwith", "End with"⟩]

/-- `filters`: common Jinja filters. -/
def filters : List CompletionItem :=
  [⟨"default", "function", "default($0)", "Default value if undefined"⟩,
   ⟨"length", "function", "length", "Get length of sequence"⟩,
   ⟨"upper", "function", "upper", "Convert to uppercase"⟩,
   ⟨"lower", "function", "lower", "Convert to lowercase"⟩,
   ⟨"title", "function", "title", "Convert to title case"⟩,
   ⟨"capitalize", "function", "capitalize", "Capitalize first letter"⟩,
   ⟨"trim", "function", "trim", "Remove whitespace"⟩,
   ⟨"escape", "function", "escape", "HTML escape"⟩,
   ⟨"safe", "function", "safe", "Mark as safe HTML"⟩,
   ⟨"int", "function", "int", "Convert to integer"⟩,
   ⟨"float", "function", "float", "Convert to float"⟩,
   ⟨"string", "function", "string", "Convert to string"⟩,
   ⟨"list", "function", "list", "Convert to list"⟩,
   ⟨"abs", "function", "abs", "Absolute value"⟩,
   ⟨"round", "function", "round", "Round number"⟩,
   ⟨"max", "function", "max", "Maximum value"⟩,
   ⟨"min", "function", "min", "Minimum value"⟩,
   ⟨"sum", "function", "sum", "Sum values"⟩,
   ⟨"sort", "function", "sort", "Sort sequence"⟩,
   ⟨"reverse", "function", "reverse", "Reverse sequence"⟩,
   ⟨"join", "function", "join('$0')", "Join with separator"⟩,
   ⟨"split", "function", "split('$0')", "Split string"⟩,
   ⟨"replace", "function", "replace('$0', '$1')", "Replace substring"⟩,
   ⟨"truncate", "function", "truncate($0)", "Truncate text"⟩,
   ⟨"first", "function", "first", "First item"⟩,
   ⟨"last", "function", "last", "Last item"⟩,
   ⟨"unique", "function", "unique", "Remove duplicates"⟩,
   ⟨"reject", "function", "reject($0)", "Filter out items"⟩,
   ⟨"select", "function", "select($0)", "Filter items"⟩,
   ⟨"map", "function", "map($0)", "Apply function to items"⟩]

/-- `tests`: Jinja test functions. -/
def tests : List CompletionItem :=
  [⟨"defined", "function", "defined", "Check if variable is defined"⟩,
   ⟨"undefined", "function", "undefined", "Check if variable is undefined"⟩,
   ⟨"none", "function", "none", "Check if value is None"⟩,
   ⟨"even", "function", "even", "Check if number is even"⟩,
   ⟨"odd", "function", "odd", "Check if number is odd"⟩,
   ⟨"string", "function", "string", "Check if value is string"⟩,
   ⟨"number", "function", "number", "Check if value is number"⟩,
   ⟨"sequence", "function", "sequence", "Check if value is sequence"⟩,
   ⟨"mapping", "function", "mapping", "Check if value is mapping"⟩,
   ⟨"iterable", "function", "iterable", "Check if value is iterable"⟩]

/-- `operators`: operator and literal keywords. -/
def operators : List CompletionItem :=
  [⟨"and", "keyword", "and", "Logical AND"⟩,
   ⟨"or", "keyword", "or", "Logical OR"⟩,
   ⟨"not", "keyword", "not", "Logical NOT"⟩,
   ⟨"in", "keyword", "in", "Membership test"⟩,
   ⟨"is", "keyword", "is", "Identity test"⟩,
   ⟨"else", "keyword", "else", "Else clause"⟩,
   ⟨"elif", "keyword", "elif $0", "Else if clause"⟩,
   ⟨"true", "constant", "true", "Boolean true"⟩,
   ⟨"false", "constant", "false", "Boolean false"⟩,
   ⟨"none", "constant", "none", "Null value"⟩]

/-- `builtInVariables`: the two built-in pseudo-variables. -/
def builtInVariables : List CompletionItem :=
  [⟨"loop", "variable", "loop", "Loop info (index, first, last)"⟩,
   ⟨"super", "function", "super()", "Parent block"⟩]

/-- The three block-starter candidates (the `apply` field records the text
their insertion callback dispatches). -/
def blockStarters : List CompletionItem :=
  [⟨"\x7b\x7b", "keyword", "\x7b\x7b \x7d\x7d", "Expression"⟩,
   ⟨"\x7b%", "keyword", "\x7b% %\x7d", "Statement"⟩,
   ⟨"\x7b#", "keyword", "\x7b# #\x7d", "Comment"⟩]

/-! ## The completion engine -/

/-- The result record of a completion call (`from`, `to`, `options`). -/
structure CompletionResult where
  rFrom : Nat
  rTo : Nat
  options : List CompletionItem
deriving Repr, DecidableEq

/-- `context.matchBefore(/\w+|[{%#]|[\w.]+/)`: the longest suffix of the
line prefix (capped at 250 characters back) consisting of `[\w.]`
characters, or failing that a single `{`/`%`/`#` right before the cursor.
Returns the replacement span. -/
def matchBeforeWord (text : List Char) (pos : Nat) : Option (Nat × Nat) :=
  let lineStart := lineStartAt text pos
  let start := max lineStart (pos - 250)
  let str := (text.take pos).drop start
  let rev := str.reverse
  let r := rev.takeWhile (fun c => isWordChar c || c = '.')
  if !r.isEmpty then some (pos - r.length, pos)
  else
    match rev with
    | c :: _ => if c = lbrace || c = '%' || c = '#' then some (pos - 1, pos) else none
    | [] => none

/-- Whether some `{{` occurrence in `cs` is followed (to the end of `cs`) by
no `}` — the condition for the fallback regex's `{{[^}]*?` part to reach the
trailing capture. -/
def existsOpenNoBrace : List Char → Bool
  | [] => false
  | c :: rest =>
    (c = lbrace && rest.head? = some lbrace && rest.tail.all (· ≠ rbrace)) ||
      existsOpenNoBrace rest

/-- The dead-branch fallback's path re-derivation: match
`/{{[^}]*?(\w+(?:\.\w+)*)$/` against the up-to-50 characters before the
dot (text from `pos-51` to `pos-1`).  The capture is the maximal trailing
dotted identifier, provided some `{{` occurs before it with no `}` in
between. -/
def dotFallbackPath (text : List Char) (pos : Nat) : Option String :=
  let bd := (text.take (pos - 1)).drop (pos - 51)
  let p := dottedPathBack bd.reverse
  if p.isEmpty then none
  else
    let body := bd.take (bd.length - p.length)
    if existsOpenNoBrace body then some (String.mk p) else none

/-- The candidate pool the source assembles into `allCompletions`, by the
`else if` chain over the context kind.  The last branch — the dot-trigger
fallback — is kept exactly as written in the source even though it is
unreachable: it requires kind `expression`, which the third branch has
already captured. -/
def completionPool (tv : VarTree) (text : List Char) (pos : Nat)
    (ctx : JinjaContext) (explicitDotTrigger : Bool) : List CompletionItem :=
  let varComps := genVarComps tv "" "" ++ builtInVariables
  if ctx.ctype = "none" || ctx.ctype = "partial" then blockStarters
  else if ctx.ctype = "statement" then
    statementCompletions ++ operators ++ varComps ++ tests
  else if ctx.ctype = "expression" then varComps ++ filters ++ operators
  else if ctx.ctype = "property_access" then
    getPropertyCompletions tv (ctx.objectPath.getD "")
  else if explicitDotTrigger && ctx.ctype = "expression" then
    match dotFallbackPath text pos with
    | some p => getPropertyCompletions tv p
    | none => []
  else []

/-- The completion source returned by
`createJinjaCompletions(templateVariables)`: resolve the context, refuse
comments, assemble the pool, filter by the case-folded prefix, and return a
replacement span with at most 20 candidates (`slice(0, 20)`). -/
def jinjaCompletions (tv : VarTree) (text : List Char) (pos : Nat) :
    Option CompletionResult :=
  let ctx := getJinjaContext text pos
  if ctx.ctype = "comment" then none
  else
    let word := matchBeforeWord text pos
    let explicitDotTrigger :=
      decide (0 < pos) && ((text.drop (pos - 1)).head? = some '.')
    let query := jsLowerData ctx.pfx
    let filtered := (completionPool tv text pos ctx explicitDotTrigger).filter
      (fun c => query.isPrefixOf (jsLowerData c.label))
    if filtered.length = 0 && !explicitDotTrigger then none
    else
      let rf := match word with | some w => w.1 | none => pos
      let span : Nat × Nat :=
        if ctx.ctype = "partial" && ctx.replaceStart.isSome then
          (ctx.replaceStart.getD 0,
            match ctx.replaceEnd with
            | some e => if e = 0 then pos else e
            | none => pos)
        else (rf, pos)
      some ⟨span.1, span.2, filtered.take 20⟩

/-! ## Supporting lemmas -/

theorem jsSplitWsGo_ne_nil (cs : List Char) :
    ∀ (m : Bool) (acc : List Char), jsSplitWsGo m cs acc ≠ [] := by
  induction cs with
  | nil => intro m acc; cases m <;> simp [jsSplitWsGo]
  | cons c rest ih =>
    intro m acc
    cases m
    · simp only [jsSplitWsGo]
      by_cases h : isJsWs c = true
      · simp [h]
      · simp only [h, if_false]
        exact ih false (c :: acc)
    · simp only [jsSplitWsGo]
      by_cases h : isJsWs c = true
      · simp only [h, if_true]
        exact ih true []
      · simp only [h, if_false]
        exact ih false [c]

theorem jsSplitWs_ne_nil (cs : List Char) : jsSplitWs cs ≠ [] :=
  jsSplitWsGo_ne_nil cs false []

theorem lastIndexOfChar_isSome_of_mem {cs : List Char} {q : Char} (h : q ∈ cs) :
    (lastIndexOfChar cs q).isSome := by
  unfold lastIndexOfChar
  have hm : q ∈ cs.reverse := List.mem_reverse.mpr h
  have : (cs.reverse.findIdx? (· = q)).isSome := by
    rw [List.findIdx?_isSome]
    exact List.any_eq_true.mpr ⟨q, hm, by simp⟩
  cases hf : cs.reverse.findIdx? (· = q) with
  | none => rw [hf] at this; simp at this
  | some i => simp

theorem tagStepBChecked_eq (st : List StackTag) (b : JBlock) :
    tagStepBChecked st b = some (tagStepB st b) := by
  unfold tagStepBChecked
  by_cases h : b.btype = BType.statement
  · rw [if_pos h]
    cases hs : jsSplitWs b.content with
    | nil => exact absurd hs (jsSplitWs_ne_nil _)
    | cons w ws => rfl
  · rw [if_neg h]
    unfold tagStepB
    rw [if_neg h]

theorem tagGoChecked_eq (bs : List JBlock) :
    ∀ (st : List StackTag) (ds : List Diag),
      tagGoChecked bs st ds = some (tagGo bs st ds) := by
  induction bs with
  | nil => intro st ds; rfl
  | cons b bs ih =>
    intro st ds
    rw [tagGoChecked, tagGo, tagStepBChecked_eq]
    exact ih _ _

theorem quoteDiagChecked_eq (b : JBlock) (q : Char) :
    quoteDiagChecked b q = some (quoteDiag b q) := by
  unfold quoteDiagChecked quoteDiag
  by_cases h : b.content.count q % 2 ≠ 0
  · rw [if_pos h, if_pos h]
    cases hl : lastIndexOfChar b.content q with
    | some j => rfl
    | none =>
      exfalso
      have hc0 : b.content.count q ≠ 0 := by
        intro h0
        rw [h0] at h
        exact h rfl
      have hmem : q ∈ b.content := by
        by_contra hq
        exact hc0 (List.count_eq_zero.mpr hq)
      have := lastIndexOfChar_isSome_of_mem hmem
      rw [hl] at this
      simp at this
  · rw [if_neg h, if_neg h]

theorem structuralDiagsChecked_eq (b : JBlock) :
    structuralDiagsChecked b = some (structuralDiags b) := by
  unfold structuralDiagsChecked structuralDiags
  rw [quoteDiagChecked_eq, quoteDiagChecked_eq]

theorem structListChecked_eq (bs : List JBlock) :
    structListChecked bs = some (bs.map structuralDiags) := by
  induction bs with
  | nil => rfl
  | cons b bs ih =>
    rw [structListChecked, structuralDiagsChecked_eq, ih]
    rfl

/-! ## Diagnostic bounds (towards C9) -/

/-- A diagnostic is well-formed for a document of length `L`. -/
def diagOk (L : Nat) (d : Diag) : Prop :=
  d.severity = "error" ∧ d.dFrom ≤ d.dTo ∧ d.dTo ≤ L

/-- A parsed block is well-placed in a document of length `L`. -/
def blockOk (L : Nat) (b : JBlock) : Prop :=
  b.bstart + 4 + b.content.length ≤ b.bend ∧ b.bend ≤ L

/-- A stack entry is well-placed in a document of length `L`. -/
def stOk (L : Nat) (e : StackTag) : Prop :=
  e.position + e.fullContent.length + 4 ≤ L

theorem jsTrim_length_le (cs : List Char) : (jsTrim cs).length ≤ cs.length := by
  unfold jsTrim dropTrailingWs
  have h1 := length_dropWhile_le isJsWs cs
  have h2 := length_dropWhile_le isJsWs (cs.dropWhile isJsWs).reverse
  simp only [List.length_reverse] at h2 ⊢
  omega

theorem indexOfSub_bound : ∀ {hay pat : List Char} {j : Nat},
    indexOfSub hay pat = some j → j + pat.length ≤ hay.length := by
  intro hay
  induction hay with
  | nil =>
    intro pat j h
    rw [indexOfSub] at h
    by_cases hp : pat.isPrefixOf ([] : List Char) = true
    · rw [if_pos hp] at h
      injection h with h'
      have : pat = [] := by
        cases pat with
        | nil => rfl
        | cons a t => simp [List.isPrefixOf] at hp
      subst this
      simp [← h']
    · rw [if_neg hp] at h
      simp at h
  | cons x xs ih =>
    intro pat j h
    rw [indexOfSub] at h
    by_cases hp : pat.isPrefixOf (x :: xs) = true
    · rw [if_pos hp] at h
      injection h with h'
      have hle : pat.length ≤ (x :: xs).length :=
        (List.isPrefixOf_iff_prefix.mp hp).length_le
      omega
    · rw [if_neg hp] at h
      cases hi : indexOfSub xs pat with
      | none => rw [hi] at h; simp at h
      | some j' =>
        rw [hi] at h
        simp only [Option.map_some'] at h
        injection h with h'
        have := ih hi
        simp only [List.length_cons]
        omega

theorem lastIndexOfChar_lt {cs : List Char} {q : Char} {j : Nat}
    (h : lastIndexOfChar cs q = some j) : j < cs.length := by
  unfold lastIndexOfChar at h
  cases hf : cs.reverse.findIdx? (· = q) with
  | none => rw [hf] at h; simp at h
  | some i =>
    rw [hf] at h
    simp only [Option.map_some'] at h
    injection h with h'
    have hne : cs ≠ [] := by
      intro h0
      subst h0
      simp [List.findIdx?] at hf
    have : 0 < cs.length := List.length_pos.mpr hne
    omega

/-- The first word of `jsSplitWs` is the leading non-whitespace run. -/
theorem jsSplitWsGo_false_head (cs : List Char) : ∀ (acc : List Char),
    (jsSplitWsGo false cs acc).headD [] =
      acc.reverse ++ cs.takeWhile (fun c => !isJsWs c) := by
  induction cs with
  | nil => intro acc; simp [jsSplitWsGo]
  | cons c rest ih =>
    intro acc
    simp only [jsSplitWsGo]
    by_cases h : isJsWs c = true
    · simp [h, List.takeWhile_cons]
    · rw [if_neg h, ih (c :: acc), List.takeWhile_cons]
      simp [h]

theorem firstWord_eq (cs : List Char) :
    (jsSplitWs cs).headD [] = cs.takeWhile (fun c => !isJsWs c) := by
  unfold jsSplitWs
  rw [jsSplitWsGo_false_head]
  simp

theorem firstWord_length_le (cs : List Char) :
    ((jsSplitWs cs).headD []).length ≤ cs.length := by
  rw [firstWord_eq]
  exact length_takeWhile_le _ _

theorem p1MatchAt_le {cs : List Char} {n : Nat} (h : p1MatchAt cs = some n) :
    n ≤ cs.length := by
  match cs with
  | c1 :: c2 :: c3 :: rest =>
    rw [p1MatchAt] at h
    split at h <;> simp_all <;> omega
  | [] => simp [p1MatchAt] at h
  | [c1] => simp [p1MatchAt] at h
  | [c1, c2] => simp [p1MatchAt] at h

theorem p3MatchAt_le {cs : List Char} {n : Nat} (h : p3MatchAt cs = some n) :
    n ≤ cs.length := by
  match cs with
  | c1 :: c2 :: c3 :: rest =>
    rw [p3MatchAt] at h
    split at h <;> simp_all <;> omega
  | [] => simp [p3MatchAt] at h
  | [c1] => simp [p3MatchAt] at h
  | [c1, c2] => simp [p3MatchAt] at h

theorem p4MatchAt_le {cs : List Char} {n : Nat} (h : p4MatchAt cs = some n) :
    n ≤ cs.length := by
  match cs with
  | c1 :: c2 :: c3 :: rest =>
    rw [p4MatchAt] at h
    split at h <;> simp_all <;> omega
  | [] => simp [p4MatchAt] at h
  | [c1] => simp [p4MatchAt] at h
  | [c1, c2] => simp [p4MatchAt] at h

theorem p2MatchAt_le {cs : List Char} {n : Nat} (h : p2MatchAt cs = some n) :
    n ≤ cs.length := by
  match cs with
  | [] => simp [p2MatchAt] at h
  | [c1] => simp [p2MatchAt] at h
  | c1 :: c2 :: rest =>
    rw [p2MatchAt] at h
    dsimp only at h
    split at h
    · split at h
      · rename_i hhead
        injection h with h'
        have hlt : wsRun rest < rest.length := by
          by_contra hge
          push_neg at hge
          unfold wsRun at hhead hge
          rw [List.drop_eq_nil_of_le hge] at hhead
          simp at hhead
        simp only [List.length_cons]
        omega
      · simp at h
    · split at h
      · cases hdrop : List.drop (wsRun (c2 :: rest)) (c2 :: rest) with
        | nil => rw [hdrop] at h; simp at h
        | cons d1 dtl =>
          cases dtl with
          | nil => rw [hdrop] at h; simp at h
          | cons d2 drest =>
            rw [hdrop] at h
            dsimp only at h
            split at h
            · injection h with h'
              have hlen := congrArg List.length hdrop
              simp only [List.length_drop, List.length_cons] at hlen
              simp only [List.length_cons]
              omega
            · simp at h
      · simp at h

theorem scanPatGo_bounds (matchAt : List Char → Option Nat)
    (hm : ∀ cs n, matchAt cs = some n → n ≤ cs.length) :
    ∀ (cs : List Char) (skip i : Nat) (p : Nat × Nat),
      p ∈ scanPatGo matchAt skip i cs →
      i ≤ p.1 ∧ p.1 ≤ p.2 ∧ p.2 ≤ i + cs.length := by
  intro cs
  induction cs with
  | nil => intro skip i p hp; simp [scanPatGo] at hp
  | cons c rest ih =>
    intro skip i p hp
    match skip with
    | skip' + 1 =>
      rw [scanPatGo] at hp
      have := ih skip' (i + 1) p hp
      simp only [List.length_cons]
      omega
    | 0 =>
      rw [scanPatGo] at hp
      cases hmt : matchAt (c :: rest) with
      | some n =>
        rw [hmt] at hp
        rcases List.mem_cons.mp hp with heq | hmem
        · subst heq
          have := hm _ _ hmt
          simp only [List.length_cons] at this ⊢
          omega
        · have := ih (n - 1) (i + 1) p hmem
          simp only [List.length_cons]
          omega
      | none =>
        rw [hmt] at hp
        have := ih 0 (i + 1) p hp
        simp only [List.length_cons]
        omega

theorem mixedDiags_bounds (text : List Char) :
    ∀ d ∈ mixedDiags text, diagOk text.length d := by
  intro d hd
  unfold mixedDiags at hd
  rcases List.mem_map.mp hd with ⟨p, hp, hde⟩
  subst hde
  unfold scanPat at hp
  rcases List.mem_append.mp hp with hp' | hp'
  · rcases List.mem_append.mp hp' with hp'' | hp''
    · rcases List.mem_append.mp hp'' with h4 | h4
      · have := scanPatGo_bounds p1MatchAt (fun _ _ => p1MatchAt_le) text 0 0 p h4
        exact ⟨rfl, by simp only [err]; omega, by simp only [err]; omega⟩
      · have := scanPatGo_bounds p2MatchAt (fun _ _ => p2MatchAt_le) text 0 0 p h4
        exact ⟨rfl, by simp only [err]; omega, by simp only [err]; omega⟩
    · have := scanPatGo_bounds p3MatchAt (fun _ _ => p3MatchAt_le) text 0 0 p hp''
      exact ⟨rfl, by simp only [err]; omega, by simp only [err]; omega⟩
  · have := scanPatGo_bounds p4MatchAt (fun _ _ => p4MatchAt_le) text 0 0 p hp'
    exact ⟨rfl, by simp only [err]; omega, by simp only [err]; omega⟩

theorem scanBlocksGo_bounds : ∀ (cs : List Char) (skip i : Nat) (m : BMatch),
    m ∈ scanBlocksGo skip i cs → i ≤ m.bstart ∧ m.bend ≤ i + cs.length := by
  intro cs
  induction cs with
  | nil => intro skip i m hm; simp [scanBlocksGo] at hm
  | cons c rest ih =>
    intro skip i m hm
    match skip with
    | skip' + 1 =>
      have hm' : m ∈ scanBlocksGo skip' (i + 1) rest := hm
      have := ih skip' (i + 1) m hm'
      simp only [List.length_cons] at this ⊢
      omega
    | 0 =>
      rw [scanBlocksGo.eq_def] at hm
      dsimp only at hm
      by_cases hc : c = lbrace
      · rw [if_pos hc] at hm
        cases rest with
        | nil => simp at hm
        | cons d rest2 =>
          dsimp only at hm
          by_cases hd : (d = '%' || d = lbrace || d = '#') = true
          · rw [if_pos hd] at hm
            cases hs : splitAtCloser rest2 with
            | some r =>
              rw [hs] at hm
              have hlen := splitAtCloser_length hs
              rcases List.mem_cons.mp hm with heq | hmem
              · subst heq
                unfold BMatch.bend
                simp only [Option.isSome_some, if_true, List.length_cons]
                omega
              · have := ih (3 + r.1.length) (i + 1) m hmem
                simp only [List.length_cons] at this ⊢
                omega
            | none =>
              rw [hs] at hm
              rcases List.mem_cons.mp hm with heq | hmem
              · subst heq
                unfold BMatch.bend
                simp only [Option.isSome_none, Bool.false_eq_true, if_false,
                  List.length_cons]
                omega
              · simp at hmem
          · rw [if_neg hd] at hm
            have := ih 0 (i + 1) m hm
            simp only [List.length_cons] at this ⊢
            omega
      · rw [if_neg hc] at hm
        have := ih 0 (i + 1) m hm
        simp only [List.length_cons] at this ⊢
        omega

theorem blockPhase_bounds (L : Nat) : ∀ (ms : List BMatch),
    (∀ m ∈ ms, m.bend ≤ L) →
    (∀ d ∈ (blockPhase ms).1, diagOk L d) ∧
    (∀ b ∈ (blockPhase ms).2, blockOk L b) := by
  intro ms
  induction ms with
  | nil => intro _; exact ⟨fun d hd => by simp [blockPhase] at hd,
      fun b hb => by simp [blockPhase] at hb⟩
  | cons m ms ih =>
    intro hms
    have hm := hms m (List.mem_cons_self _ _)
    have ihr := ih (fun m' hm' => hms m' (List.mem_cons_of_mem _ hm'))
    have hbe : m.bstart + 2 + m.rawContent.length ≤ m.bend := by
      unfold BMatch.bend
      split <;> omega
    rw [blockPhase]
    cases hcf : m.closerFirst with
    | none =>
      dsimp only
      constructor
      · intro d hd
        rcases List.mem_cons.mp hd with heq | hmem
        · subst heq
          exact ⟨rfl, by simp only [err]; omega, by simp only [err]; omega⟩
        · exact ihr.1 d hmem
      · exact ihr.2
    | some cl =>
      dsimp only
      by_cases hne : cl ≠ expectedCloserFirst m.opener
      · rw [if_pos hne]
        constructor
        · intro d hd
          rcases List.mem_cons.mp hd with heq | hmem
          · subst heq
            exact ⟨rfl, by simp only [err]; omega, by simp only [err]; omega⟩
          · exact ihr.1 d hmem
        · exact ihr.2
      · rw [if_neg hne]
        constructor
        · exact ihr.1
        · intro b hb
          rcases List.mem_cons.mp hb with heq | hmem
          · subst heq
            have htr := jsTrim_length_le m.rawContent
            have : m.bend = m.bstart + 2 + m.rawContent.length + 2 := by
              unfold BMatch.bend
              rw [hcf]
              simp
            exact ⟨by simp only []; omega, by simp only []; omega⟩
          · exact ihr.2 b hmem

theorem typoDiagsFor_bounds (L : Nat) (b : JBlock) (hb : blockOk L b)
    (firstWord : List Char) (hfw : firstWord.length ≤ b.content.length) :
    ∀ d ∈ typoDiagsFor b firstWord, diagOk L d := by
  intro d hd
  unfold typoDiagsFor at hd
  rcases List.mem_filterMap.mp hd with ⟨tc, _, htc⟩
  by_cases hcond : firstWord = tc.1.data
  · rw [if_pos hcond] at htc
    injection htc with htc'
    subst htc'
    have hlen : tc.1.length = firstWord.length := by
      rw [hcond]
      rfl
    obtain ⟨hb1, hb2⟩ := hb
    have hsl : tc.1.length = tc.1.data.length := rfl
    cases hio : indexOfSub b.content tc.1.data with
    | some j =>
      have hjb := indexOfSub_bound hio
      rw [hcond] at hfw
      refine ⟨rfl, ?_, ?_⟩ <;> simp only [err, hio, Option.getD_some] <;> omega
    | none =>
      rw [hcond] at hfw
      refine ⟨rfl, ?_, ?_⟩ <;>
        simp only [err, hio, Option.getD_none] <;> omega
  · rw [if_neg hcond] at htc
    simp at htc

theorem tagStepB_bounds (L : Nat) (st : List StackTag) (b : JBlock)
    (hb : blockOk L b) (hst : ∀ e ∈ st, stOk L e) :
    (∀ e ∈ (tagStepB st b).1, stOk L e) ∧
    (∀ d ∈ (tagStepB st b).2, diagOk L d) := by
  obtain ⟨hb1, hb2⟩ := hb
  have hfw : ((jsSplitWs b.content).headD []).length ≤ b.content.length :=
    firstWord_length_le _
  have htypo := typoDiagsFor_bounds L b ⟨hb1, hb2⟩ ((jsSplitWs b.content).headD []) hfw
  unfold tagStepB
  by_cases hstmt : b.btype = BType.statement
  · rw [if_pos hstmt]
    dsimp only
    by_cases hopen : blockTags.contains (String.mk ((jsSplitWs b.content).headD [])) = true
    · rw [if_pos hopen]
      refine ⟨?_, htypo⟩
      intro e he
      rcases List.mem_append.mp he with he' | he'
      · exact hst e he'
      · rcases List.mem_singleton.mp he' with rfl
        unfold stOk
        dsimp only
        omega
    · rw [if_neg hopen]
      by_cases hclose : endTags.contains (String.mk ((jsSplitWs b.content).headD [])) = true
      · rw [if_pos hclose]
        cases hl : st.getLast? with
        | none =>
          dsimp only
          refine ⟨hst, ?_⟩
          intro d hd
          rcases List.mem_append.mp hd with hd' | hd'
          · exact htypo d hd'
          · rcases List.mem_singleton.mp hd' with rfl
            exact ⟨rfl, by simp only [err]; omega, by simp only [err]; omega⟩
        | some lastTag =>
          dsimp only
          by_cases hmis : lastTag.tag ≠ String.mk (((jsSplitWs b.content).headD []).drop 3)
          · rw [if_pos hmis]
            refine ⟨hst, ?_⟩
            intro d hd
            rcases List.mem_append.mp hd with hd' | hd'
            · exact htypo d hd'
            · rcases List.mem_singleton.mp hd' with rfl
              exact ⟨rfl, by simp only [err]; omega, by simp only [err]; omega⟩
          · rw [if_neg hmis]
            refine ⟨?_, htypo⟩
            intro e he
            exact hst e (List.dropLast_subset _ he)
      · rw [if_neg hclose]
        by_cases hend : ("end".data).isPrefixOf ((jsSplitWs b.content).headD []) = true
        · rw [if_pos hend]
          refine ⟨hst, ?_⟩
          intro d hd
          rcases List.mem_append.mp hd with hd' | hd'
          · exact htypo d hd'
          · rcases List.mem_singleton.mp hd' with rfl
            cases hio : indexOfSub b.content ((jsSplitWs b.content).headD []) with
            | some j =>
              have hjb := indexOfSub_bound hio
              refine ⟨rfl, ?_, ?_⟩ <;>
                simp only [err, hio, Option.getD_some] <;> omega
            | none =>
              refine ⟨rfl, ?_, ?_⟩ <;>
                simp only [err, hio, Option.getD_none] <;> omega
        · rw [if_neg hend]
          exact ⟨hst, htypo⟩
  · rw [if_neg hstmt]
    exact ⟨hst, fun d hd => by simp at hd⟩

theorem tagGo_bounds (L : Nat) : ∀ (bs : List JBlock) (st : List StackTag)
    (ds : List Diag),
    (∀ b ∈ bs, blockOk L b) → (∀ e ∈ st, stOk L e) → (∀ d ∈ ds, diagOk L d) →
    (∀ e ∈ (tagGo bs st ds).1, stOk L e) ∧
    (∀ d ∈ (tagGo bs st ds).2, diagOk L d) := by
  intro bs
  induction bs with
  | nil => intro st ds _ hst hds; exact ⟨hst, hds⟩
  | cons b bs ih =>
    intro st ds hbs hst hds
    rw [tagGo]
    have hstep := tagStepB_bounds L st b (hbs b (List.mem_cons_self _ _)) hst
    exact ih _ _ (fun b' hb' => hbs b' (List.mem_cons_of_mem _ hb')) hstep.1
      (fun d hd => (List.mem_append.mp hd).elim (hds d) (hstep.2 d))

theorem unclosedDiags_bounds (L : Nat) (st : List StackTag)
    (hst : ∀ e ∈ st, stOk L e) : ∀ d ∈ unclosedDiags st, diagOk L d := by
  intro d hd
  unfold unclosedDiags at hd
  rcases List.mem_map.mp hd with ⟨e, he, hde⟩
  subst hde
  have := hst e he
  unfold stOk at this
  exact ⟨rfl, by simp only [err]; omega, by simp only [err]; omega⟩

theorem quoteDiag_bounds (L : Nat) (b : JBlock) (q : Char) (hb : blockOk L b) :
    ∀ d ∈ quoteDiag b q, diagOk L d := by
  intro d hd
  obtain ⟨hb1, hb2⟩ := hb
  unfold quoteDiag at hd
  by_cases hodd : b.content.count q % 2 ≠ 0
  · rw [if_pos hodd] at hd
    cases hl : lastIndexOfChar b.content q with
    | some j =>
      rw [hl] at hd
      rcases List.mem_singleton.mp hd with rfl
      have := lastIndexOfChar_lt hl
      exact ⟨rfl, by simp only [err]; omega, by simp only [err]; omega⟩
    | none => rw [hl] at hd; simp at hd
  · rw [if_neg hodd] at hd
    simp at hd

theorem bracketGo_bounds (o c : Char) (cst : Nat) (nm : String) (L : Nat) :
    ∀ (rem : List Char) (i depth : Nat) (lu : Option Nat) (ds : List Diag),
    (∀ d ∈ ds, diagOk L d) →
    (∀ j, lu = some j → cst + j + 1 ≤ L) →
    cst + i + rem.length ≤ L →
    (∀ d ∈ (bracketGo o c cst nm i depth lu ds rem).2.2, diagOk L d) ∧
    (∀ j, (bracketGo o c cst nm i depth lu ds rem).2.1 = some j →
      cst + j + 1 ≤ L) := by
  intro rem
  induction rem with
  | nil =>
    intro i depth lu ds hds hlu _
    exact ⟨hds, hlu⟩
  | cons x xs ih =>
    intro i depth lu ds hds hlu hL
    simp only [List.length_cons] at hL
    rw [bracketGo]
    by_cases hxo : x = o
    · rw [if_pos hxo]
      apply ih
      · exact hds
      · intro j hj
        by_cases hd1 : depth + 1 = 1
        · rw [if_pos hd1] at hj
          injection hj with hj'
          omega
        · rw [if_neg hd1] at hj
          exact hlu j hj
      · omega
    · rw [if_neg hxo]
      by_cases hxc : x = c
      · rw [if_pos hxc]
        by_cases hd0 : depth = 0
        · rw [if_pos hd0]
          apply ih
          · intro d hd
            rcases List.mem_append.mp hd with hd' | hd'
            · exact hds d hd'
            · rcases List.mem_singleton.mp hd' with rfl
              exact ⟨rfl, by simp only [err]; omega, by simp only [err]; omega⟩
          · exact hlu
          · omega
        · rw [if_neg hd0]
          apply ih <;> first | exact hds | exact hlu | omega
      · rw [if_neg hxc]
        apply ih <;> first | exact hds | exact hlu | omega

theorem bracketDiags_bounds (L : Nat) (b : JBlock) (o c : Char) (nm : String)
    (hb : blockOk L b) : ∀ d ∈ bracketDiags b o c nm, diagOk L d := by
  intro d hd
  obtain ⟨hb1, hb2⟩ := hb
  unfold bracketDiags at hd
  dsimp only at hd
  have hg := bracketGo_bounds o c (b.bstart + 2) nm L b.content 0 0 none []
    (fun d hd => by simp at hd) (fun j hj => by simp at hj) (by omega)
  rcases List.mem_append.mp hd with hd' | hd'
  · exact hg.1 d hd'
  · by_cases hdep : (bracketGo o c (b.bstart + 2) nm 0 0 none [] b.content).1 > 0
    · rw [if_pos hdep] at hd'
      cases hlu : (bracketGo o c (b.bstart + 2) nm 0 0 none [] b.content).2.1 with
      | some j =>
        rw [hlu] at hd'
        rcases List.mem_singleton.mp hd' with rfl
        have := hg.2 j hlu
        exact ⟨rfl, by simp only [err]; omega, by simp only [err]; omega⟩
      | none =>
        rw [hlu] at hd'
        rcases List.mem_singleton.mp hd' with rfl
        exact ⟨rfl, by simp only [err]; omega, by simp only [err]; omega⟩
    · rw [if_neg hdep] at hd'
      simp at hd'

theorem structuralDiags_bounds (L : Nat) (b : JBlock) (hb : blockOk L b) :
    ∀ d ∈ structuralDiags b, diagOk L d := by
  intro d hd
  unfold structuralDiags at hd
  rcases List.mem_append.mp hd with h1 | h1
  · rcases List.mem_append.mp h1 with h2 | h2
    · rcases List.mem_append.mp h2 with h3 | h3
      · rcases List.mem_append.mp h3 with h4 | h4
        · exact quoteDiag_bounds L b dquote hb d h4
        · exact quoteDiag_bounds L b squote hb d h4
      · exact bracketDiags_bounds L b '(' ')' "parenthesis" hb d h3
    · exact bracketDiags_bounds L b '[' ']' "bracket" hb d h2
  · exact bracketDiags_bounds L b lbrace rbrace "brace" hb d h1

theorem undefinedVarDiags_bounds (L : Nat) (tv : VarTree) (b : JBlock)
    (hb : blockOk L b) : ∀ d ∈ undefinedVarDiags tv b, diagOk L d := by
  intro d hd
  obtain ⟨hb1, hb2⟩ := hb
  unfold undefinedVarDiags at hd
  dsimp only at hd
  split at hd
  · simp at hd
  · split at hd
    · have hvl : (rootOf (jsTrim (b.content.takeWhile (· ≠ '|')))).length ≤
          b.content.length := by
        have h1 := length_takeWhile_le (fun c => decide (c ≠ '.'))
          (jsTrim (b.content.takeWhile (· ≠ '|')))
        have h2 := jsTrim_length_le (b.content.takeWhile (· ≠ '|'))
        have h3 := length_takeWhile_le (fun c => decide (c ≠ '|')) b.content
        unfold rootOf
        omega
      rcases List.mem_singleton.mp hd with rfl
      cases hio : indexOfSub b.content
          (rootOf (jsTrim (b.content.takeWhile (· ≠ '|')))) with
      | some j =>
        have hjb := indexOfSub_bound hio
        refine ⟨rfl, ?_, ?_⟩ <;>
          simp only [err, hio, Option.getD_some] <;> omega
      | none =>
        refine ⟨rfl, ?_, ?_⟩ <;>
          simp only [err, hio, Option.getD_none] <;> omega
    · simp at hd

/-! ## Well-formed documents (towards C1)

A document "consisting only of correctly paired `{{…}}`, `{%…%}`, `{#…#}`
blocks" is formalised as a render of a list of items: plain text segments and
the three block kinds.  Safety demands that plain text stays clear of the
four delimiter characters and that block contents use only identifier
characters, spaces and dots — exactly the inputs the claim's examples are
made of. -/

/-- One piece of a structured document. -/
inductive Item where
  | lit : List Char → Item
  | exprB : List Char → Item
  | stmtB : List Char → Item
  | commB : List Char → Item

/-- Characters allowed in plain text between blocks. -/
def litChar (c : Char) : Bool :=
  !(c = lbrace || c = rbrace || c = '%' || c = '#')

/-- Characters allowed inside block contents: word characters, spaces and
dots. -/
def contChar (c : Char) : Bool := isWordChar c || c = ' ' || c = '.'

/-- Safety of one item. -/
def itemSafe : Item → Prop
  | .lit s => ∀ c ∈ s, litChar c = true
  | .exprB c => ∀ x ∈ c, contChar x = true
  | .stmtB c => ∀ x ∈ c, contChar x = true
  | .commB c => ∀ x ∈ c, contChar x = true

/-- Render one item to text. -/
def renderItem : Item → List Char
  | .lit s => s
  | .exprB c => lbrace :: lbrace :: (c ++ [rbrace, rbrace])
  | .stmtB c => lbrace :: '%' :: (c ++ ['%', rbrace])
  | .commB c => lbrace :: '#' :: (c ++ ['#', rbrace])

/-- Render a document. -/
def render : List Item → List Char
  | [] => []
  | it :: rest => renderItem it ++ render rest

/-- The block matches the scanner finds on a rendered document, with their
absolute offsets. -/
def renderMatches : List Item → Nat → List BMatch
  | [], _ => []
  | .lit s :: rest, i => renderMatches rest (i + s.length)
  | .exprB c :: rest, i =>
    ⟨i, lbrace, c, some rbrace⟩ :: renderMatches rest (i + c.length + 4)
  | .stmtB c :: rest, i =>
    ⟨i, '%', c, some '%'⟩ :: renderMatches rest (i + c.length + 4)
  | .commB c :: rest, i =>
    ⟨i, '#', c, some '#'⟩ :: renderMatches rest (i + c.length + 4)

/-- The blocks the parser produces on a rendered document. -/
def renderBlocks : List Item → Nat → List JBlock
  | [], _ => []
  | .lit s :: rest, i => renderBlocks rest (i + s.length)
  | .exprB c :: rest, i =>
    ⟨.expression, i, i + c.length + 4, jsTrim c⟩ :: renderBlocks rest (i + c.length + 4)
  | .stmtB c :: rest, i =>
    ⟨.statement, i, i + c.length + 4, jsTrim c⟩ :: renderBlocks rest (i + c.length + 4)
  | .commB c :: rest, i =>
    ⟨.comment, i, i + c.length + 4, jsTrim c⟩ :: renderBlocks rest (i + c.length + 4)

/-- First words of the statement blocks of a document, as the tag checker
sees them (first whitespace-separated token of the trimmed content). -/
def stmtWords : List Item → List String
  | [] => []
  | .stmtB c :: rest => String.mk ((jsSplitWs (jsTrim c)).headD []) :: stmtWords rest
  | _ :: rest => stmtWords rest

/-- One step of the specification-level tag balance check of spec 4.4: an
opening keyword pushes, a closing keyword pops its exact partner, a typo or
unknown `end…` word is an error, anything else is ignored. -/
def specTagStep (st : List String) (w : String) : Option (List String) :=
  if blockTags.contains w then some (w :: st)
  else if endTags.contains w then
    match st with
    | t :: rest => if t = String.mk (w.data.drop 3) then some rest else none
    | [] => none
  else if commonTypos.any (fun tc => tc.1 = w) ||
      ("end".data).isPrefixOf w.data then none
  else some st

/-- Specification-level fold of the tag balance check. -/
def specTagFold : List String → List String → Option (List String)
  | st, [] => some st
  | st, w :: ws =>
    match specTagStep st w with
    | some st' => specTagFold st' ws
    | none => none

/-- A document's tag keywords are balanced: the balance check runs through
and ends with an empty stack (spec 4.4). -/
def specTagBalanced (items : List Item) : Prop :=
  specTagFold [] (stmtWords items) = some []

/-- The base expression of an expression block's content (spec 4.6): the
segment before the first filter pipe, trimmed. -/
def baseExprOf (content : List Char) : List Char :=
  jsTrim (content.takeWhile (· ≠ '|'))

/-- The undefined-variable check of spec 4.6 accepts an expression block:
its base expression is skipped (complex, a literal, or a builtin root), has
no root identifier, or its root identifier is a top-level key of the tree —
or the tree is empty. -/
def exprRootOk (tv : VarTree) (c : List Char) : Prop :=
  let base := baseExprOf (jsTrim c)
  base.contains '[' = true ∨ base.contains dquote = true ∨
  base.contains squote = true ∨ base.contains '(' = true ∨
  base.contains ' ' = true ∨ isLiteralExpr base = true ∨
  (["loop", "super"].contains (String.mk (rootOf base))) = true ∨
  rootOf base = [] ∨ jfLen tv = 0 ∨ hasKey tv (String.mk (rootOf base)) = true

theorem litChar_spec {c : Char} (h : litChar c = true) :
    c ≠ lbrace ∧ c ≠ rbrace ∧ c ≠ '%' ∧ c ≠ '#' := by
  unfold litChar at h
  simp only [Bool.not_eq_true', Bool.or_eq_false_iff, decide_eq_false_iff_not] at h
  exact ⟨h.1.1.1, h.1.1.2, h.1.2, h.2⟩

theorem contChar_not_special {x : Char} (h : contChar x = true) :
    x ≠ lbrace ∧ x ≠ rbrace ∧ x ≠ '%' ∧ x ≠ '#' ∧ x ≠ dquote ∧ x ≠ squote ∧
    x ≠ '(' ∧ x ≠ ')' ∧ x ≠ '[' ∧ x ≠ ']' := by
  refine ⟨?_, ?_, ?_, ?_, ?_, ?_, ?_, ?_, ?_, ?_⟩ <;>
    (intro heq; subst heq; exact absurd h (by decide))

theorem scanBlocksGo_skip : ∀ (xs ys : List Char) (i : Nat),
    scanBlocksGo xs.length i (xs ++ ys) = scanBlocksGo 0 (i + xs.length) ys := by
  intro xs
  induction xs with
  | nil => intro ys i; simp
  | cons x xs ih =>
    intro ys i
    show scanBlocksGo xs.length (i + 1) (xs ++ ys) = _
    rw [ih]
    have : i + 1 + xs.length = i + (x :: xs).length := by
      simp only [List.length_cons]
      omega
    rw [this]

theorem scanBlocksGo_lit : ∀ (s : List Char), (∀ c ∈ s, litChar c = true) →
    ∀ (rest : List Char) (i : Nat),
    scanBlocksGo 0 i (s ++ rest) = scanBlocksGo 0 (i + s.length) rest := by
  intro s
  induction s with
  | nil => intro _ rest i; simp
  | cons c s' ih =>
    intro hs rest i
    have hc := litChar_spec (hs c (List.mem_cons_self _ _))
    show scanBlocksGo 0 i (c :: (s' ++ rest)) = _
    rw [scanBlocksGo.eq_def]
    dsimp only
    rw [if_neg hc.1]
    rw [ih (fun c hc => hs c (List.mem_cons_of_mem _ hc)) rest (i + 1)]
    have : i + 1 + s'.length = i + (c :: s').length := by
      simp only [List.length_cons]
      omega
    rw [this]

theorem splitAtCloser_render : ∀ (c : List Char), (∀ x ∈ c, contChar x = true) →
    ∀ (cl : Char), (cl = '%' ∨ cl = rbrace ∨ cl = '#') → ∀ (rest : List Char),
    splitAtCloser (c ++ cl :: rbrace :: rest) = some (c, cl, rest) := by
  intro c
  induction c with
  | nil =>
    intro _ cl hcl rest
    rw [List.nil_append, splitAtCloser]
    rw [if_pos]
    · simp
    · rw [Bool.and_eq_true]
      constructor
      · rcases hcl with h | h | h <;> simp [h]
      · simp
  | cons x c' ih =>
    intro hc cl hcl rest
    have hx := contChar_not_special (hc x (List.mem_cons_self _ _))
    rw [List.cons_append, splitAtCloser]
    rw [if_neg]
    · rw [ih (fun y hy => hc y (List.mem_cons_of_mem _ hy)) cl hcl rest]
      rfl
    · intro hcond
      rw [Bool.and_eq_true] at hcond
      have := hcond.1
      simp only [Bool.or_eq_true, decide_eq_true_eq] at this
      rcases this with (h | h) | h
      · exact hx.2.2.1 h
      · exact hx.2.1 h
      · exact hx.2.2.2.1 h

theorem scanBlocksGo_block (d cl : Char) (hd : (d = '%' || d = lbrace || d = '#') = true)
    (hcl : cl = '%' ∨ cl = rbrace ∨ cl = '#')
    (c : List Char) (hc : ∀ x ∈ c, contChar x = true) (R : List Char) (i : Nat) :
    scanBlocksGo 0 i (lbrace :: d :: (c ++ cl :: rbrace :: R)) =
      ⟨i, d, c, some cl⟩ :: scanBlocksGo 0 (i + c.length + 4) R := by
  rw [scanBlocksGo.eq_def]
  dsimp only
  rw [if_pos rfl, if_pos hd, splitAtCloser_render c hc cl hcl R]
  dsimp only
  have hsplit : d :: (c ++ cl :: rbrace :: R) = (d :: (c ++ [cl, rbrace])) ++ R := by
    simp
  rw [hsplit]
  have hlen : 3 + c.length = (d :: (c ++ [cl, rbrace])).length := by
    simp only [List.length_cons, List.length_append]
    simp
    omega
  rw [hlen, scanBlocksGo_skip]
  have : i + 1 + (d :: (c ++ [cl, rbrace])).length = i + c.length + 4 := by
    simp only [List.length_cons, List.length_append]
    simp
    omega
  rw [this]

theorem scanBlocks_render : ∀ (items : List Item) (i : Nat),
    (∀ it ∈ items, itemSafe it) →
    scanBlocksGo 0 i (render items) = renderMatches items i := by
  intro items
  induction items with
  | nil => intro i _; rfl
  | cons it rest ih =>
    intro i hsafe
    have hit := hsafe it (List.mem_cons_self _ _)
    have hrest := fun x hx => hsafe x (List.mem_cons_of_mem _ hx)
    cases it with
    | lit s =>
      show scanBlocksGo 0 i (s ++ render rest) = _
      rw [scanBlocksGo_lit s hit (render rest) i, ih _ hrest]
      rfl
    | exprB c =>
      show scanBlocksGo 0 i
        ((lbrace :: lbrace :: (c ++ [rbrace, rbrace])) ++ render rest) = _
      have hsh : (lbrace :: lbrace :: (c ++ [rbrace, rbrace])) ++ render rest =
          lbrace :: lbrace :: (c ++ rbrace :: rbrace :: render rest) := by
        simp
      rw [hsh, scanBlocksGo_block lbrace rbrace (by simp) (Or.inr (Or.inl rfl)) c hit
        (render rest) i, ih _ hrest]
      rfl
    | stmtB c =>
      show scanBlocksGo 0 i
        ((lbrace :: '%' :: (c ++ ['%', rbrace])) ++ render rest) = _
      have hsh : (lbrace :: '%' :: (c ++ ['%', rbrace])) ++ render rest =
          lbrace :: '%' :: (c ++ '%' :: rbrace :: render rest) := by
        simp
      rw [hsh, scanBlocksGo_block '%' '%' (by simp) (Or.inl rfl) c hit
        (render rest) i, ih _ hrest]
      rfl
    | commB c =>
      show scanBlocksGo 0 i
        ((lbrace :: '#' :: (c ++ ['#', rbrace])) ++ render rest) = _
      have hsh : (lbrace :: '#' :: (c ++ ['#', rbrace])) ++ render rest =
          lbrace :: '#' :: (c ++ '#' :: rbrace :: render rest) := by
        simp
      rw [hsh, scanBlocksGo_block '#' '#' (by simp) (Or.inr (Or.inr rfl)) c hit
        (render rest) i, ih _ hrest]
      rfl

theorem blockPhase_cons_good (m : BMatch) (ms : List BMatch) (cl : Char)
    (hm : m.closerFirst = some cl) (hok : cl = expectedCloserFirst m.opener) :
    blockPhase (m :: ms) =
      ((blockPhase ms).1,
        ⟨btypeOf m.opener, m.bstart, m.bend, jsTrim m.rawContent⟩ ::
          (blockPhase ms).2) := by
  rw [blockPhase]
  dsimp only
  rw [hm]
  dsimp only
  rw [if_neg (fun h => h hok)]

theorem blockPhase_render : ∀ (items : List Item) (i : Nat),
    blockPhase (renderMatches items i) = ([], renderBlocks items i) := by
  intro items
  induction items with
  | nil => intro i; rfl
  | cons it rest ih =>
    intro i
    cases it with
    | lit s => exact ih (i + s.length)
    | exprB c =>
      show blockPhase (⟨i, lbrace, c, some rbrace⟩ ::
        renderMatches rest (i + c.length + 4)) = _
      rw [blockPhase_cons_good _ _ rbrace rfl (by rfl), ih (i + c.length + 4)]
      show ([], ⟨btypeOf lbrace, i, BMatch.bend ⟨i, lbrace, c, some rbrace⟩,
        jsTrim c⟩ :: renderBlocks rest (i + c.length + 4)) = _
      have h1 : btypeOf lbrace = BType.expression := rfl
      have h2 : BMatch.bend ⟨i, lbrace, c, some rbrace⟩ = i + c.length + 4 := by
        unfold BMatch.bend
        simp only [Option.isSome_some, if_true]
        omega
      rw [h1, h2]
      rfl
    | stmtB c =>
      show blockPhase (⟨i, '%', c, some '%'⟩ ::
        renderMatches rest (i + c.length + 4)) = _
      rw [blockPhase_cons_good _ _ '%' rfl (by rfl), ih (i + c.length + 4)]
      show ([], ⟨btypeOf '%', i, BMatch.bend ⟨i, '%', c, some '%'⟩,
        jsTrim c⟩ :: renderBlocks rest (i + c.length + 4)) = _
      have h1 : btypeOf '%' = BType.statement := rfl
      have h2 : BMatch.bend ⟨i, '%', c, some '%'⟩ = i + c.length + 4 := by
        unfold BMatch.bend
        simp only [Option.isSome_some, if_true]
        omega
      rw [h1, h2]
      rfl
    | commB c =>
      show blockPhase (⟨i, '#', c, some '#'⟩ ::
        renderMatches rest (i + c.length + 4)) = _
      rw [blockPhase_cons_good _ _ '#' rfl (by rfl), ih (i + c.length + 4)]
      show ([], ⟨btypeOf '#', i, BMatch.bend ⟨i, '#', c, some '#'⟩,
        jsTrim c⟩ :: renderBlocks rest (i + c.length + 4)) = _
      have h1 : btypeOf '#' = BType.comment := rfl
      have h2 : BMatch.bend ⟨i, '#', c, some '#'⟩ = i + c.length + 4 := by
        unfold BMatch.bend
        simp only [Option.isSome_some, if_true]
        omega
      rw [h1, h2]
      rfl

theorem blockTags_not_typo : ∀ t ∈ blockTags, ∀ tc ∈ commonTypos, t ≠ tc.1 := by
  decide

theorem endTags_not_typo : ∀ t ∈ endTags, ∀ tc ∈ commonTypos, t ≠ tc.1 := by
  decide

theorem typoDiagsFor_eq_nil (b : JBlock) (fw : List Char)
    (h : ∀ tc ∈ commonTypos, fw ≠ tc.1.data) : typoDiagsFor b fw = [] := by
  unfold typoDiagsFor
  rw [List.filterMap_eq_nil_iff]
  intro tc htc
  rw [if_neg (h tc htc)]

theorem data_eq_of_ne {l : List Char} {s : String} (h : String.mk l ≠ s) :
    l ≠ s.data := by
  intro he
  exact h (by rw [he])

theorem stack_last : ∀ (st : List StackTag) (xs : List String) (t : String),
    st.map StackTag.tag = xs ++ [t] →
    ∃ lastE, st.getLast? = some lastE ∧ lastE.tag = t ∧
      st.dropLast.map StackTag.tag = xs := by
  intro st
  induction st with
  | nil => intro xs t h; simp at h
  | cons a st ih =>
    intro xs t h
    cases st with
    | nil =>
      cases xs with
      | nil =>
        simp at h
        exact ⟨a, rfl, h, by simp⟩
      | cons x xs' =>
        exfalso
        have := congrArg List.length h
        simp [List.length_append] at this
    | cons b st' =>
      cases xs with
      | nil =>
        exfalso
        have := congrArg List.length h
        simp [List.length_append] at this
      | cons x xs' =>
        simp only [List.map_cons, List.cons_append, List.cons.injEq] at h
        obtain ⟨hax, hrest⟩ := h
        obtain ⟨lastE, hl1, hl2, hl3⟩ := ih xs' t hrest
        refine ⟨lastE, ?_, hl2, ?_⟩
        · rw [List.getLast?_cons_cons]
          exact hl1
        · rw [List.dropLast_cons₂, List.map_cons, hl3, hax]

theorem tagStepB_render (i e : Nat) (c : List Char) (st : List StackTag)
    (specSt specSt' : List String)
    (hrel : st.map StackTag.tag = specSt.reverse)
    (hstep : specTagStep specSt
      (String.mk ((jsSplitWs (jsTrim c)).headD [])) = some specSt') :
    (tagStepB st ⟨.statement, i, e, jsTrim c⟩).1.map StackTag.tag = specSt'.reverse ∧
    (tagStepB st ⟨.statement, i, e, jsTrim c⟩).2 = [] := by
  unfold tagStepB
  rw [if_pos rfl]
  dsimp only
  unfold specTagStep at hstep
  by_cases hopen : blockTags.contains
      (String.mk ((jsSplitWs (jsTrim c)).headD [])) = true
  · rw [if_pos hopen] at hstep ⊢
    injection hstep with hstep'
    subst hstep'
    have htypo : typoDiagsFor ⟨.statement, i, e, jsTrim c⟩
        ((jsSplitWs (jsTrim c)).headD []) = [] := by
      apply typoDiagsFor_eq_nil
      intro tc htc
      exact data_eq_of_ne
        (blockTags_not_typo _ (List.elem_iff.mp hopen) tc htc)
    refine ⟨?_, htypo⟩
    simp only [List.map_append, List.map_cons, List.map_nil, hrel,
      List.reverse_cons]
  · rw [if_neg hopen] at hstep ⊢
    by_cases hclose : endTags.contains
        (String.mk ((jsSplitWs (jsTrim c)).headD [])) = true
    · rw [if_pos hclose] at hstep ⊢
      have htypo : typoDiagsFor ⟨.statement, i, e, jsTrim c⟩
          ((jsSplitWs (jsTrim c)).headD []) = [] := by
        apply typoDiagsFor_eq_nil
        intro tc htc
        exact data_eq_of_ne
          (endTags_not_typo _ (List.elem_iff.mp hclose) tc htc)
      cases hsp : specSt with
      | nil => rw [hsp] at hstep; simp at hstep
      | cons t rest' =>
        rw [hsp] at hstep
        dsimp only at hstep
        by_cases hmatch : t = String.mk
            (((String.mk ((jsSplitWs (jsTrim c)).headD [])).data).drop 3)
        · rw [if_pos hmatch] at hstep
          injection hstep with hstep'
          subst hstep'
          rw [hsp] at hrel
          simp only [List.reverse_cons] at hrel
          obtain ⟨lastE, hl1, hl2, hl3⟩ := stack_last st rest'.reverse t hrel
          rw [hl1]
          dsimp only
          rw [if_neg]
          · exact ⟨hl3, htypo⟩
          · intro hne
            apply hne
            rw [hl2, hmatch]
        · rw [if_neg hmatch] at hstep
          simp at hstep
    · rw [if_neg hclose] at hstep ⊢
      by_cases hbad : (commonTypos.any (fun tc =>
            tc.1 = String.mk ((jsSplitWs (jsTrim c)).headD [])) ||
          ("end".data).isPrefixOf
            ((String.mk ((jsSplitWs (jsTrim c)).headD [])).data)) = true
      · rw [if_pos hbad] at hstep
        simp at hstep
      · rw [if_neg hbad] at hstep
        injection hstep with hstep'
        subst hstep'
        rw [Bool.or_eq_true] at hbad
        push_neg at hbad
        have hnotypo : ∀ tc ∈ commonTypos,
            ((jsSplitWs (jsTrim c)).headD []) ≠ tc.1.data := by
          intro tc htc
          apply data_eq_of_ne
          intro heq
          apply hbad.1 ∘ List.any_eq_true.mpr
          exact ⟨tc, htc, by rw [← heq]; exact decide_eq_true rfl⟩
        have htypo : typoDiagsFor ⟨.statement, i, e, jsTrim c⟩
            ((jsSplitWs (jsTrim c)).headD []) = [] :=
          typoDiagsFor_eq_nil _ _ hnotypo
        rw [if_neg]
        · exact ⟨hrel, htypo⟩
        · intro hpref
          exact absurd hpref (by simpa using hbad.2)

theorem tagGo_render : ∀ (items : List Item) (i : Nat) (st : List StackTag)
    (ds : List Diag) (specSt specEnd : List String),
    st.map StackTag.tag = specSt.reverse →
    specTagFold specSt (stmtWords items) = some specEnd →
    (tagGo (renderBlocks items i) st ds).1.map StackTag.tag = specEnd.reverse ∧
    (tagGo (renderBlocks items i) st ds).2 = ds := by
  intro items
  induction items with
  | nil =>
    intro i st ds specSt specEnd hrel hfold
    injection hfold with hfold'
    subst hfold'
    exact ⟨hrel, rfl⟩
  | cons it rest ih =>
    intro i st ds specSt specEnd hrel hfold
    cases it with
    | lit s => exact ih (i + s.length) st ds specSt specEnd hrel hfold
    | exprB c =>
      have hshape : renderBlocks (Item.exprB c :: rest) i =
          ⟨.expression, i, i + c.length + 4, jsTrim c⟩ ::
            renderBlocks rest (i + c.length + 4) := rfl
      rw [hshape, tagGo]
      have hstep : tagStepB st ⟨.expression, i, i + c.length + 4, jsTrim c⟩ =
          (st, []) := by
        unfold tagStepB
        have hne : (⟨BType.expression, i, i + c.length + 4, jsTrim c⟩ : JBlock).btype ≠
            BType.statement := by
          simp
        rw [if_neg hne]
      rw [hstep]
      dsimp only
      rw [List.append_nil]
      exact ih (i + c.length + 4) st ds specSt specEnd hrel hfold
    | commB c =>
      have hshape : renderBlocks (Item.commB c :: rest) i =
          ⟨.comment, i, i + c.length + 4, jsTrim c⟩ ::
            renderBlocks rest (i + c.length + 4) := rfl
      rw [hshape, tagGo]
      have hstep : tagStepB st ⟨.comment, i, i + c.length + 4, jsTrim c⟩ =
          (st, []) := by
        unfold tagStepB
        have hne : (⟨BType.comment, i, i + c.length + 4, jsTrim c⟩ : JBlock).btype ≠
            BType.statement := by
          simp
        rw [if_neg hne]
      rw [hstep]
      dsimp only
      rw [List.append_nil]
      exact ih (i + c.length + 4) st ds specSt specEnd hrel hfold
    | stmtB c =>
      have hshape : renderBlocks (Item.stmtB c :: rest) i =
          ⟨.statement, i, i + c.length + 4, jsTrim c⟩ ::
            renderBlocks rest (i + c.length + 4) := rfl
      have hwords : stmtWords (Item.stmtB c :: rest) =
          String.mk ((jsSplitWs (jsTrim c)).headD []) :: stmtWords rest := rfl
      rw [hwords] at hfold
      rw [specTagFold] at hfold
      cases hsp : specTagStep specSt
          (String.mk ((jsSplitWs (jsTrim c)).headD [])) with
      | none => rw [hsp] at hfold; simp at hfold
      | some specMid =>
        rw [hsp] at hfold
        dsimp only at hfold
        have hb := tagStepB_render i (i + c.length + 4) c st specSt specMid hrel hsp
        rw [hshape, tagGo]
        rw [hb.2, List.append_nil]
        exact ih (i + c.length + 4) _ ds specMid specEnd hb.1 hfold

theorem jsTrim_mem {x : Char} {cs : List Char} (h : x ∈ jsTrim cs) : x ∈ cs := by
  unfold jsTrim dropTrailingWs at h
  rw [List.mem_reverse] at h
  have h1 := (List.dropWhile_sublist (l := (cs.dropWhile isJsWs).reverse)
    (p := isJsWs)).mem h
  rw [List.mem_reverse] at h1
  exact (List.dropWhile_sublist (l := cs) (p := isJsWs)).mem h1

theorem bracketGo_inert (o c : Char) (cst : Nat) (nm : String) :
    ∀ (rem : List Char), (∀ x ∈ rem, x ≠ o ∧ x ≠ c) →
    ∀ (i depth : Nat) (lu : Option Nat) (ds : List Diag),
    bracketGo o c cst nm i depth lu ds rem = (depth, lu, ds) := by
  intro rem
  induction rem with
  | nil => intro _ i depth lu ds; rfl
  | cons x xs ih =>
    intro hx i depth lu ds
    have hx0 := hx x (List.mem_cons_self _ _)
    rw [bracketGo, if_neg hx0.1, if_neg hx0.2]
    exact ih (fun y hy => hx y (List.mem_cons_of_mem _ hy)) _ _ _ _

theorem structuralDiags_safe (b : JBlock)
    (h : ∀ x ∈ b.content, contChar x = true) : structuralDiags b = [] := by
  have hnot : ∀ (q : Char), (contChar q = false) → b.content.count q = 0 := by
    intro q hq
    rw [List.count_eq_zero]
    intro hmem
    rw [h q hmem] at hq
    exact absurd hq (by simp)
  have hq1 : quoteDiag b dquote = [] := by
    unfold quoteDiag
    rw [hnot dquote (by decide)]
    simp
  have hq2 : quoteDiag b squote = [] := by
    unfold quoteDiag
    rw [hnot squote (by decide)]
    simp
  have hbr : ∀ (o c : Char) (nm : String), contChar o = false → contChar c = false →
      bracketDiags b o c nm = [] := by
    intro o c nm ho hc
    unfold bracketDiags
    dsimp only
    rw [bracketGo_inert o c (b.bstart + 2) nm b.content ?hchars 0 0 none []]
    case hchars =>
      intro x hx
      constructor
      · intro heq
        subst heq
        rw [h x hx] at ho
        exact absurd ho (by simp)
      · intro heq
        subst heq
        rw [h x hx] at hc
        exact absurd hc (by simp)
    simp
  unfold structuralDiags
  rw [hq1, hq2, hbr '(' ')' "parenthesis" (by decide) (by decide),
    hbr '[' ']' "bracket" (by decide) (by decide),
    hbr lbrace rbrace "brace" (by decide) (by decide)]
  rfl

theorem renderBlocks_mem : ∀ (items : List Item) (i : Nat) (b : JBlock),
    b ∈ renderBlocks items i →
    ∃ c, b.content = jsTrim c ∧
      ((Item.exprB c ∈ items ∧ b.btype = .expression) ∨
       (Item.stmtB c ∈ items ∧ b.btype = .statement) ∨
       (Item.commB c ∈ items ∧ b.btype = .comment)) := by
  intro items
  induction items with
  | nil => intro i b hb; simp [renderBlocks] at hb
  | cons it rest ih =>
    intro i b hb
    cases it with
    | lit s =>
      obtain ⟨c, hc, hcase⟩ := ih (i + s.length) b hb
      exact ⟨c, hc, by
        rcases hcase with ⟨h1, h2⟩ | ⟨h1, h2⟩ | ⟨h1, h2⟩
        · exact Or.inl ⟨List.mem_cons_of_mem _ h1, h2⟩
        · exact Or.inr (Or.inl ⟨List.mem_cons_of_mem _ h1, h2⟩)
        · exact Or.inr (Or.inr ⟨List.mem_cons_of_mem _ h1, h2⟩)⟩
    | exprB c0 =>
      rcases List.mem_cons.mp hb with heq | hmem
      · subst heq
        exact ⟨c0, rfl, Or.inl ⟨List.mem_cons_self _ _, rfl⟩⟩
      · obtain ⟨c, hc, hcase⟩ := ih (i + c0.length + 4) b hmem
        exact ⟨c, hc, by
          rcases hcase with ⟨h1, h2⟩ | ⟨h1, h2⟩ | ⟨h1, h2⟩
          · exact Or.inl ⟨List.mem_cons_of_mem _ h1, h2⟩
          · exact Or.inr (Or.inl ⟨List.mem_cons_of_mem _ h1, h2⟩)
          · exact Or.inr (Or.inr ⟨List.mem_cons_of_mem _ h1, h2⟩)⟩
    | stmtB c0 =>
      rcases List.mem_cons.mp hb with heq | hmem
      · subst heq
        exact ⟨c0, rfl, Or.inr (Or.inl ⟨List.mem_cons_self _ _, rfl⟩)⟩
      · obtain ⟨c, hc, hcase⟩ := ih (i + c0.length + 4) b hmem
        exact ⟨c, hc, by
          rcases hcase with ⟨h1, h2⟩ | ⟨h1, h2⟩ | ⟨h1, h2⟩
          · exact Or.inl ⟨List.mem_cons_of_mem _ h1, h2⟩
          · exact Or.inr (Or.inl ⟨List.mem_cons_of_mem _ h1, h2⟩)
          · exact Or.inr (Or.inr ⟨List.mem_cons_of_mem _ h1, h2⟩)⟩
    | commB c0 =>
      rcases List.mem_cons.mp hb with heq | hmem
      · subst heq
        exact ⟨c0, rfl, Or.inr (Or.inr ⟨List.mem_cons_self _ _, rfl⟩)⟩
      · obtain ⟨c, hc, hcase⟩ := ih (i + c0.length + 4) b hmem
        exact ⟨c, hc, by
          rcases hcase with ⟨h1, h2⟩ | ⟨h1, h2⟩ | ⟨h1, h2⟩
          · exact Or.inl ⟨List.mem_cons_of_mem _ h1, h2⟩
          · exact Or.inr (Or.inl ⟨List.mem_cons_of_mem _ h1, h2⟩)
          · exact Or.inr (Or.inr ⟨List.mem_cons_of_mem _ h1, h2⟩)⟩

theorem structural_render_nil (items : List Item) (i : Nat)
    (hsafe : ∀ it ∈ items, itemSafe it) :
    ∀ b ∈ renderBlocks items i, structuralDiags b = [] := by
  intro b hb
  obtain ⟨c, hcont, hcase⟩ := renderBlocks_mem items i b hb
  apply structuralDiags_safe
  rw [hcont]
  intro x hx
  have hxc : x ∈ c := jsTrim_mem hx
  rcases hcase with ⟨h1, -⟩ | ⟨h1, -⟩ | ⟨h1, -⟩ <;>
    exact hsafe _ h1 x hxc

theorem undefinedVarDiags_ok (tv : VarTree) (b : JBlock) (c : List Char)
    (hcont : b.content = jsTrim c) (hok : exprRootOk tv c) :
    undefinedVarDiags tv b = [] := by
  unfold undefinedVarDiags
  dsimp only
  rw [hcont]
  unfold exprRootOk baseExprOf at hok
  dsimp only at hok
  by_cases hskip : ((jsTrim ((jsTrim c).takeWhile (· ≠ '|'))).contains '[' ||
      (jsTrim ((jsTrim c).takeWhile (· ≠ '|'))).contains dquote ||
      (jsTrim ((jsTrim c).takeWhile (· ≠ '|'))).contains squote ||
      (jsTrim ((jsTrim c).takeWhile (· ≠ '|'))).contains '(' ||
      (jsTrim ((jsTrim c).takeWhile (· ≠ '|'))).contains ' ' ||
      isLiteralExpr (jsTrim ((jsTrim c).takeWhile (· ≠ '|'))) ||
      (["loop", "super"].contains
        (String.mk (rootOf (jsTrim ((jsTrim c).takeWhile (· ≠ '|'))))))) = true
  · rw [if_pos hskip]
  · rw [if_neg hskip]
    rw [if_neg]
    intro hguard
    rw [Bool.and_eq_true, Bool.and_eq_true] at hguard
    obtain ⟨⟨hv, hlen⟩, hkey⟩ := hguard
    simp only [Bool.or_eq_true, not_or] at hskip
    rcases hok with h|h|h|h|h|h|h|h|h|h
    · exact hskip.1.1.1.1.1.1 h
    · exact hskip.1.1.1.1.1.2 h
    · exact hskip.1.1.1.1.2 h
    · exact hskip.1.1.1.2 h
    · exact hskip.1.1.2 h
    · exact hskip.1.2 h
    · exact hskip.2 h
    · rw [decide_eq_true_eq] at hv
      exact hv h
    · rw [decide_eq_true_eq] at hlen
      omega
    · rw [Bool.not_eq_true'] at hkey
      rw [h] at hkey
      exact absurd hkey (by simp)

theorem suffix_append_cases {s A B : List Char} (h : s <:+ A ++ B) :
    s <:+ B ∨ ∃ t, t <:+ A ∧ t ≠ [] ∧ s = t ++ B := by
  obtain ⟨pre, hpre⟩ := h
  rcases List.append_eq_append_iff.mp hpre with ⟨a', hA, hs⟩ | ⟨c', hpre', hB⟩
  · cases a' with
    | nil => left; rw [hs, List.nil_append]
    | cons x t' =>
      right
      exact ⟨x :: t', ⟨pre, hA.symm⟩, by simp, hs⟩
  · left
    exact ⟨c', hB.symm⟩

theorem scanPatGo_nil (matchAt : List Char → Option Nat) :
    ∀ (cs : List Char), (∀ s, s <:+ cs → matchAt s = none) →
    ∀ i, scanPatGo matchAt 0 i cs = [] := by
  intro cs
  induction cs with
  | nil => intro _ i; rfl
  | cons c rest ih =>
    intro h i
    rw [scanPatGo]
    rw [h (c :: rest) (List.suffix_refl _)]
    exact ih (fun s hs => h s (hs.trans (List.suffix_cons c rest))) (i + 1)

theorem drop_wsRun (l : List Char) : l.drop (wsRun l) = l.dropWhile isJsWs := by
  unfold wsRun
  induction l with
  | nil => rfl
  | cons x xs ih =>
    rw [List.takeWhile_cons, List.dropWhile_cons]
    cases h : isJsWs x with
    | true => simpa [h] using ih
    | false => simp [h]

theorem head_cont_or (c : List Char) (hc : ∀ x ∈ c, contChar x = true)
    (y : Char) (M : List Char) :
    ∃ z u', c ++ y :: M = z :: u' ∧ (contChar z = true ∨ z = y) := by
  cases c with
  | nil => exact ⟨y, M, rfl, Or.inr rfl⟩
  | cons c0 c' =>
    exact ⟨c0, c' ++ y :: M, rfl,
      Or.inl (hc c0 (List.mem_cons_self _ _))⟩

theorem dropWhile_cont_head (c : List Char) (hc : ∀ x ∈ c, contChar x = true)
    (y : Char) (hy : isJsWs y = false) (M : List Char) :
    ∃ z u', (c ++ y :: M).dropWhile isJsWs = z :: u' ∧
      ((contChar z = true ∧ isJsWs z = false) ∨ z = y) := by
  induction c with
  | nil =>
    refine ⟨y, M, ?_, Or.inr rfl⟩
    rw [List.nil_append, List.dropWhile_cons, hy]
    simp
  | cons x c' ih =>
    rw [List.cons_append, List.dropWhile_cons]
    by_cases hx : isJsWs x = true
    · rw [if_pos hx]
      exact ih (fun z hz => hc z (List.mem_cons_of_mem _ hz))
    · rw [if_neg hx]
      exact ⟨x, c' ++ y :: M, rfl,
        Or.inl ⟨hc x (List.mem_cons_self _ _), Bool.not_eq_true _ ▸ hx⟩⟩

/-- All four mixed-delimiter patterns fail at the head of `s`. -/
def noMix4 (s : List Char) : Prop :=
  p1MatchAt s = none ∧ p2MatchAt s = none ∧ p3MatchAt s = none ∧ p4MatchAt s = none

theorem noMix4_nil : noMix4 [] := ⟨rfl, rfl, rfl, rfl⟩

theorem noMix4_head {x : Char} (h1 : x ≠ lbrace) (h2 : x ≠ '%') (h3 : x ≠ '#')
    (rest : List Char) : noMix4 (x :: rest) := by
  refine ⟨?_, ?_, ?_, ?_⟩
  · match rest with
    | [] => rfl
    | [y] => rfl
    | y :: z :: r =>
      rw [p1MatchAt, if_neg, if_neg]
      · intro hb
        rw [Bool.and_eq_true, Bool.and_eq_true] at hb
        exact h2 (of_decide_eq_true hb.1.1)
      · intro hb
        rw [Bool.and_eq_true, Bool.and_eq_true] at hb
        exact h1 (of_decide_eq_true hb.1.1)
  · match rest with
    | [] => rfl
    | y :: r =>
      rw [p2MatchAt, if_neg, if_neg]
      · intro hb
        exact h2 hb
      · intro hb
        rw [Bool.and_eq_true] at hb
        exact h1 (of_decide_eq_true hb.1)
  · match rest with
    | [] => rfl
    | [y] => rfl
    | y :: z :: r =>
      rw [p3MatchAt, if_neg, if_neg]
      · intro hb
        rw [Bool.and_eq_true, Bool.and_eq_true] at hb
        exact h2 (of_decide_eq_true hb.1.1)
      · intro hb
        rw [Bool.and_eq_true, Bool.and_eq_true] at hb
        exact h1 (of_decide_eq_true hb.1.1)
  · match rest with
    | [] => rfl
    | [y] => rfl
    | y :: z :: r =>
      rw [p4MatchAt, if_neg, if_neg]
      · intro hb
        rw [Bool.and_eq_true, Bool.and_eq_true] at hb
        exact h3 (of_decide_eq_true hb.1.1)
      · intro hb
        rw [Bool.and_eq_true, Bool.and_eq_true] at hb
        exact h1 (of_decide_eq_true hb.1.1)

theorem suffix_cons_cases {s : List Char} {a : Char} {l : List Char}
    (h : s <:+ a :: l) : s = a :: l ∨ s <:+ l := by
  obtain ⟨pre, hpre⟩ := h
  cases pre with
  | nil => left; rw [List.nil_append] at hpre; exact hpre
  | cons x p' =>
    right
    rw [List.cons_append] at hpre
    injection hpre with _ h2
    exact ⟨p', h2⟩

theorem p1_fail3 {a b c : Char} (rest : List Char)
    (h1 : ¬(a = lbrace ∧ b = lbrace ∧ c = '%'))
    (h2 : ¬(a = '%' ∧ b = rbrace ∧ c = rbrace)) :
    p1MatchAt (a :: b :: c :: rest) = none := by
  rw [p1MatchAt, if_neg, if_neg]
  · intro hb
    rw [Bool.and_eq_true, Bool.and_eq_true] at hb
    exact h2 ⟨of_decide_eq_true hb.1.1, of_decide_eq_true hb.1.2, of_decide_eq_true hb.2⟩
  · intro hb
    rw [Bool.and_eq_true, Bool.and_eq_true] at hb
    exact h1 ⟨of_decide_eq_true hb.1.1, of_decide_eq_true hb.1.2, of_decide_eq_true hb.2⟩

theorem p3_fail3 {a b c : Char} (rest : List Char)
    (h1 : ¬(a = lbrace ∧ b = '#' ∧ c = '%'))
    (h2 : ¬(a = '%' ∧ b = '#' ∧ c = rbrace)) :
    p3MatchAt (a :: b :: c :: rest) = none := by
  rw [p3MatchAt, if_neg, if_neg]
  · intro hb
    rw [Bool.and_eq_true, Bool.and_eq_true] at hb
    exact h2 ⟨of_decide_eq_true hb.1.1, of_decide_eq_true hb.1.2, of_decide_eq_true hb.2⟩
  · intro hb
    rw [Bool.and_eq_true, Bool.and_eq_true] at hb
    exact h1 ⟨of_decide_eq_true hb.1.1, of_decide_eq_true hb.1.2, of_decide_eq_true hb.2⟩

theorem p4_fail3 {a b c : Char} (rest : List Char)
    (h1 : ¬(a = lbrace ∧ b = '%' ∧ c = '#'))
    (h2 : ¬(a = '#' ∧ b = '%' ∧ c = rbrace)) :
    p4MatchAt (a :: b :: c :: rest) = none := by
  rw [p4MatchAt, if_neg, if_neg]
  · intro hb
    rw [Bool.and_eq_true, Bool.and_eq_true] at hb
    exact h2 ⟨of_decide_eq_true hb.1.1, of_decide_eq_true hb.1.2, of_decide_eq_true hb.2⟩
  · intro hb
    rw [Bool.and_eq_true, Bool.and_eq_true] at hb
    exact h1 ⟨of_decide_eq_true hb.1.1, of_decide_eq_true hb.1.2, of_decide_eq_true hb.2⟩

theorem noMix4_lb_safe {z : Char} (h1 : z ≠ lbrace) (h2 : z ≠ '%') (h3 : z ≠ '#')
    (u' : List Char) : noMix4 (lbrace :: z :: u') := by
  refine ⟨?_, ?_, ?_, ?_⟩
  · match u' with
    | [] => rfl
    | w :: u'' =>
      exact p1_fail3 u'' (fun hp => h1 hp.2.1) (fun hp => absurd hp.1 (by decide))
  · rw [p2MatchAt, if_neg, if_neg]
    · exact (by decide : ¬(lbrace = '%'))
    · intro hb
      rw [Bool.and_eq_true] at hb
      exact h1 (of_decide_eq_true hb.2)
  · match u' with
    | [] => rfl
    | w :: u'' =>
      exact p3_fail3 u'' (fun hp => h3 hp.2.1) (fun hp => absurd hp.1 (by decide))
  · match u' with
    | [] => rfl
    | w :: u'' =>
      exact p4_fail3 u'' (fun hp => h2 hp.2.1) (fun hp => absurd hp.1 (by decide))

theorem noMix4_expr_whole (c R : List Char) (hc : ∀ x ∈ c, contChar x = true) :
    noMix4 (lbrace :: lbrace :: (c ++ rbrace :: rbrace :: R)) := by
  obtain ⟨z, u', heq, hz⟩ := head_cont_or c hc rbrace (rbrace :: R)
  have hz3 : z ≠ lbrace ∧ z ≠ '%' ∧ z ≠ '#' := by
    rcases hz with h | rfl
    · have hh := contChar_not_special h
      exact ⟨hh.1, hh.2.2.1, hh.2.2.2.1⟩
    · exact ⟨by decide, by decide, by decide⟩
  refine ⟨?_, ?_, ?_, ?_⟩
  · rw [heq]
    exact p1_fail3 u' (fun hp => hz3.2.1 hp.2.2) (fun hp => absurd hp.1 (by decide))
  · rw [p2MatchAt]
    have hA : (decide (lbrace = lbrace) && decide (lbrace = lbrace)) = true := by decide
    rw [if_pos hA]
    dsimp only
    rw [drop_wsRun]
    obtain ⟨z1, u1, heq1, hz1⟩ := dropWhile_cont_head c hc rbrace (by decide) (rbrace :: R)
    rw [heq1]
    rw [if_neg]
    intro hsome
    have hz1' : z1 = '%' := by simpa using hsome
    rcases hz1 with ⟨hcont, _⟩ | rfl
    · exact (contChar_not_special hcont).2.2.1 hz1'
    · exact absurd hz1' (by decide)
  · rw [heq]
    exact p3_fail3 u' (fun hp => absurd hp.2.1 (by decide)) (fun hp => absurd hp.1 (by decide))
  · rw [heq]
    exact p4_fail3 u' (fun hp => absurd hp.2.1 (by decide)) (fun hp => absurd hp.1 (by decide))

theorem noMix4_expr_tail (c R : List Char) (hc : ∀ x ∈ c, contChar x = true) :
    noMix4 (lbrace :: (c ++ rbrace :: rbrace :: R)) := by
  obtain ⟨z, u', heq, hz⟩ := head_cont_or c hc rbrace (rbrace :: R)
  rw [heq]
  rcases hz with h | rfl
  · have hh := contChar_not_special h
    exact noMix4_lb_safe hh.1 hh.2.2.1 hh.2.2.2.1 u'
  · exact noMix4_lb_safe (by decide) (by decide) (by decide) u'

theorem noMix4_stmt_whole (c R : List Char) (hc : ∀ x ∈ c, contChar x = true) :
    noMix4 (lbrace :: '%' :: (c ++ '%' :: rbrace :: R)) := by
  obtain ⟨z, u', heq, hz⟩ := head_cont_or c hc '%' (rbrace :: R)
  have hzsharp : z ≠ '#' := by
    rcases hz with h | rfl
    · exact (contChar_not_special h).2.2.2.1
    · decide
  refine ⟨?_, ?_, ?_, ?_⟩
  · rw [heq]
    exact p1_fail3 u' (fun hp => absurd hp.2.1 (by decide)) (fun hp => absurd hp.1 (by decide))
  · rw [p2MatchAt, if_neg, if_neg]
    · exact (by decide : ¬(lbrace = '%'))
    · intro hb
      rw [Bool.and_eq_true] at hb
      exact absurd (of_decide_eq_true hb.2) (by decide)
  · rw [heq]
    exact p3_fail3 u' (fun hp => absurd hp.2.1 (by decide)) (fun hp => absurd hp.1 (by decide))
  · rw [heq]
    exact p4_fail3 u' (fun hp => hzsharp hp.2.2) (fun hp => absurd hp.1 (by decide))

theorem noMix4_stmt_tail (c R : List Char) (hc : ∀ x ∈ c, contChar x = true) :
    noMix4 ('%' :: (c ++ '%' :: rbrace :: R)) := by
  obtain ⟨z, u', heq, hz⟩ := head_cont_or c hc '%' (rbrace :: R)
  have hzr : z ≠ rbrace := by
    rcases hz with h | rfl
    · exact (contChar_not_special h).2.1
    · decide
  have hzsharp : z ≠ '#' := by
    rcases hz with h | rfl
    · exact (contChar_not_special h).2.2.2.1
    · decide
  refine ⟨?_, ?_, ?_, ?_⟩
  · rw [heq]
    cases u' with
    | nil => rfl
    | cons w u'' =>
      exact p1_fail3 u'' (fun hp => absurd hp.1 (by decide)) (fun hp => hzr hp.2.1)
  · rw [heq, p2MatchAt]
    have hA : ¬((decide ('%' = lbrace) && decide (z = lbrace)) = true) := by
      intro hb
      rw [Bool.and_eq_true] at hb
      exact absurd (of_decide_eq_true hb.1) (by decide)
    rw [if_neg hA, if_pos rfl]
    dsimp only
    rw [drop_wsRun, ← heq]
    obtain ⟨z1, u1, heq1, hz1⟩ := dropWhile_cont_head c hc '%' (by decide) (rbrace :: R)
    rw [heq1]
    have hz1r : z1 ≠ rbrace := by
      rcases hz1 with ⟨h, _⟩ | rfl
      · exact (contChar_not_special h).2.1
      · decide
    cases u1 with
    | nil => rfl
    | cons w2 u2 =>
      dsimp only
      rw [if_neg]
      intro hb
      rw [Bool.and_eq_true] at hb
      exact hz1r (of_decide_eq_true hb.1)
  · rw [heq]
    cases u' with
    | nil => rfl
    | cons w u'' =>
      exact p3_fail3 u'' (fun hp => absurd hp.1 (by decide)) (fun hp => hzsharp hp.2.1)
  · rw [heq]
    cases u' with
    | nil => rfl
    | cons w u'' =>
      exact p4_fail3 u'' (fun hp => absurd hp.1 (by decide)) (fun hp => absurd hp.1 (by decide))

theorem noMix4_stmt_close (R : List Char)
    (hR : ∀ z, R.head? = some z → litChar z = true ∨ z = lbrace) :
    noMix4 ('%' :: rbrace :: R) := by
  refine ⟨?_, ?_, ?_, ?_⟩
  · cases R with
    | nil => rfl
    | cons r0 R' =>
      have hr0 : r0 ≠ rbrace := by
        rcases hR r0 rfl with h | rfl
        · exact (litChar_spec h).2.1
        · decide
      exact p1_fail3 R' (fun hp => absurd hp.1 (by decide)) (fun hp => hr0 hp.2.2)
  · rw [p2MatchAt]
    have hA : ¬((decide ('%' = lbrace) && decide (rbrace = lbrace)) = true) := by
      intro hb
      rw [Bool.and_eq_true] at hb
      exact absurd (of_decide_eq_true hb.1) (by decide)
    rw [if_neg hA, if_pos rfl]
    dsimp only
    rw [drop_wsRun]
    rw [List.dropWhile_cons, if_neg (by decide : ¬(isJsWs rbrace = true))]
    cases R with
    | nil => rfl
    | cons r0 R' =>
      dsimp only
      rw [if_neg]
      intro hb
      rw [Bool.and_eq_true] at hb
      rcases hR r0 rfl with h | rfl
      · exact (litChar_spec h).2.1 (of_decide_eq_true hb.2)
      · exact absurd (of_decide_eq_true hb.2) (by decide)
  · cases R with
    | nil => rfl
    | cons r0 R' =>
      exact p3_fail3 R' (fun hp => absurd hp.1 (by decide)) (fun hp => absurd hp.2.1 (by decide))
  · cases R with
    | nil => rfl
    | cons r0 R' =>
      exact p4_fail3 R' (fun hp => absurd hp.1 (by decide)) (fun hp => absurd hp.1 (by decide))

theorem noMix4_comm_whole (c R : List Char) (hc : ∀ x ∈ c, contChar x = true) :
    noMix4 (lbrace :: '#' :: (c ++ '#' :: rbrace :: R)) := by
  obtain ⟨z, u', heq, hz⟩ := head_cont_or c hc '#' (rbrace :: R)
  have hzpct : z ≠ '%' := by
    rcases hz with h | rfl
    · exact (contChar_not_special h).2.2.1
    · decide
  refine ⟨?_, ?_, ?_, ?_⟩
  · rw [heq]
    exact p1_fail3 u' (fun hp => absurd hp.2.1 (by decide)) (fun hp => absurd hp.1 (by decide))
  · rw [p2MatchAt, if_neg, if_neg]
    · exact (by decide : ¬(lbrace = '%'))
    · intro hb
      rw [Bool.and_eq_true] at hb
      exact absurd (of_decide_eq_true hb.2) (by decide)
  · rw [heq]
    exact p3_fail3 u' (fun hp => hzpct hp.2.2) (fun hp => absurd hp.1 (by decide))
  · rw [heq]
    exact p4_fail3 u' (fun hp => absurd hp.2.1 (by decide)) (fun hp => absurd hp.1 (by decide))

theorem noMix4_comm_tail (c R : List Char) (hc : ∀ x ∈ c, contChar x = true) :
    noMix4 ('#' :: (c ++ '#' :: rbrace :: R)) := by
  obtain ⟨z, u', heq, hz⟩ := head_cont_or c hc '#' (rbrace :: R)
  have hzpct : z ≠ '%' := by
    rcases hz with h | rfl
    · exact (contChar_not_special h).2.2.1
    · decide
  refine ⟨?_, ?_, ?_, ?_⟩
  · rw [heq]
    cases u' with
    | nil => rfl
    | cons w u'' =>
      exact p1_fail3 u'' (fun hp => absurd hp.1 (by decide)) (fun hp => absurd hp.1 (by decide))
  · rw [heq, p2MatchAt, if_neg, if_neg]
    · exact (by decide : ¬(('#' : Char) = '%'))
    · intro hb
      rw [Bool.and_eq_true] at hb
      exact absurd (of_decide_eq_true hb.1) (by decide)
  · rw [heq]
    cases u' with
    | nil => rfl
    | cons w u'' =>
      exact p3_fail3 u'' (fun hp => absurd hp.1 (by decide)) (fun hp => absurd hp.1 (by decide))
  · rw [heq]
    cases u' with
    | nil => rfl
    | cons w u'' =>
      exact p4_fail3 u'' (fun hp => absurd hp.1 (by decide)) (fun hp => hzpct hp.2.1)

theorem noMix4_comm_close (R : List Char) : noMix4 ('#' :: rbrace :: R) := by
  refine ⟨?_, ?_, ?_, ?_⟩
  · cases R with
    | nil => rfl
    | cons r0 R' =>
      exact p1_fail3 R' (fun hp => absurd hp.1 (by decide)) (fun hp => absurd hp.1 (by decide))
  · rw [p2MatchAt, if_neg, if_neg]
    · exact (by decide : ¬(('#' : Char) = '%'))
    · intro hb
      rw [Bool.and_eq_true] at hb
      exact absurd (of_decide_eq_true hb.1) (by decide)
  · cases R with
    | nil => rfl
    | cons r0 R' =>
      exact p3_fail3 R' (fun hp => absurd hp.1 (by decide)) (fun hp => absurd hp.1 (by decide))
  · cases R with
    | nil => rfl
    | cons r0 R' =>
      exact p4_fail3 R' (fun hp => absurd hp.1 (by decide)) (fun hp => absurd hp.2.1 (by decide))

theorem render_headOk : ∀ (items : List Item), (∀ it ∈ items, itemSafe it) →
    ∀ z, (render items).head? = some z → litChar z = true ∨ z = lbrace := by
  intro items
  induction items with
  | nil =>
    intro _ z hz
    exact absurd hz (by simp [render])
  | cons it rest ih =>
    intro hsafe z hz
    cases it with
    | lit s =>
      cases s with
      | nil =>
        apply ih (fun x hx => hsafe x (List.mem_cons_of_mem _ hx)) z
        simpa [render, renderItem] using hz
      | cons s0 s' =>
        left
        have hs0 : s0 = z := by simpa [render, renderItem] using hz
        exact hs0 ▸ hsafe (.lit (s0 :: s')) (List.mem_cons_self _ _) s0 (List.mem_cons_self _ _)
    | exprB c =>
      right
      have : lbrace = z := by simpa [render, renderItem] using hz
      exact this.symm
    | stmtB c =>
      right
      have : lbrace = z := by simpa [render, renderItem] using hz
      exact this.symm
    | commB c =>
      right
      have : lbrace = z := by simpa [render, renderItem] using hz
      exact this.symm

theorem noMix4_render : ∀ (items : List Item), (∀ it ∈ items, itemSafe it) →
    ∀ s, s <:+ render items → noMix4 s := by
  intro items
  induction items with
  | nil =>
    intro _ s hs
    obtain rfl := List.suffix_nil.mp hs
    exact noMix4_nil
  | cons it rest ih =>
    intro hsafe s hs
    have hsafeR : ∀ x ∈ rest, itemSafe x := fun x hx => hsafe x (List.mem_cons_of_mem _ hx)
    have ihs := ih hsafeR
    have hR := render_headOk rest hsafeR
    cases it with
    | lit str =>
      have hs' : s <:+ str ++ render rest := hs
      rcases suffix_append_cases hs' with h | ⟨t, htsuf, htne, rfl⟩
      · exact ihs s h
      · cases t with
        | nil => exact absurd rfl htne
        | cons x t' =>
          obtain ⟨h1, _, h3, h4⟩ := litChar_spec
            (hsafe (.lit str) (List.mem_cons_self _ _) x (htsuf.subset (List.mem_cons_self _ _)))
          rw [List.cons_append]
          exact noMix4_head h1 h3 h4 _
    | exprB c =>
      have hc : ∀ x ∈ c, contChar x = true := hsafe (.exprB c) (List.mem_cons_self _ _)
      have hs' : s <:+ lbrace :: lbrace :: (c ++ rbrace :: rbrace :: render rest) := by
        have hnorm : render (Item.exprB c :: rest) =
            lbrace :: lbrace :: (c ++ rbrace :: rbrace :: render rest) := by
          simp [render, renderItem]
        rwa [hnorm] at hs
      rcases suffix_cons_cases hs' with rfl | hs2
      · exact noMix4_expr_whole c _ hc
      rcases suffix_cons_cases hs2 with rfl | hs3
      · exact noMix4_expr_tail c _ hc
      rcases suffix_append_cases hs3 with h4 | ⟨t, htsuf, htne, rfl⟩
      · rcases suffix_cons_cases h4 with rfl | h5
        · exact noMix4_head (by decide) (by decide) (by decide) _
        rcases suffix_cons_cases h5 with rfl | h6
        · exact noMix4_head (by decide) (by decide) (by decide) _
        · exact ihs s h6
      · cases t with
        | nil => exact absurd rfl htne
        | cons x t' =>
          have hx := contChar_not_special (hc x (htsuf.subset (List.mem_cons_self _ _)))
          rw [List.cons_append]
          exact noMix4_head hx.1 hx.2.2.1 hx.2.2.2.1 _
    | stmtB c =>
      have hc : ∀ x ∈ c, contChar x = true := hsafe (.stmtB c) (List.mem_cons_self _ _)
      have hs' : s <:+ lbrace :: '%' :: (c ++ '%' :: rbrace :: render rest) := by
        have hnorm : render (Item.stmtB c :: rest) =
            lbrace :: '%' :: (c ++ '%' :: rbrace :: render rest) := by
          simp [render, renderItem]
        rwa [hnorm] at hs
      rcases suffix_cons_cases hs' with rfl | hs2
      · exact noMix4_stmt_whole c _ hc
      rcases suffix_cons_cases hs2 with rfl | hs3
      · exact noMix4_stmt_tail c _ hc
      rcases suffix_append_cases hs3 with h4 | ⟨t, htsuf, htne, rfl⟩
      · rcases suffix_cons_cases h4 with rfl | h5
        · exact noMix4_stmt_close _ hR
        rcases suffix_cons_cases h5 with rfl | h6
        · exact noMix4_head (by decide) (by decide) (by decide) _
        · exact ihs s h6
      · cases t with
        | nil => exact absurd rfl htne
        | cons x t' =>
          have hx := contChar_not_special (hc x (htsuf.subset (List.mem_cons_self _ _)))
          rw [List.cons_append]
          exact noMix4_head hx.1 hx.2.2.1 hx.2.2.2.1 _
    | commB c =>
      have hc : ∀ x ∈ c, contChar x = true := hsafe (.commB c) (List.mem_cons_self _ _)
      have hs' : s <:+ lbrace :: '#' :: (c ++ '#' :: rbrace :: render rest) := by
        have hnorm : render (Item.commB c :: rest) =
            lbrace :: '#' :: (c ++ '#' :: rbrace :: render rest) := by
          simp [render, renderItem]
        rwa [hnorm] at hs
      rcases suffix_cons_cases hs' with rfl | hs2
      · exact noMix4_comm_whole c _ hc
      rcases suffix_cons_cases hs2 with rfl | hs3
      · exact noMix4_comm_tail c _ hc
      rcases suffix_append_cases hs3 with h4 | ⟨t, htsuf, htne, rfl⟩
      · rcases suffix_cons_cases h4 with rfl | h5
        · exact noMix4_comm_close _
        rcases suffix_cons_cases h5 with rfl | h6
        · exact noMix4_head (by decide) (by decide) (by decide) _
        · exact ihs s h6
      · cases t with
        | nil => exact absurd rfl htne
        | cons x t' =>
          have hx := contChar_not_special (hc x (htsuf.subset (List.mem_cons_self _ _)))
          rw [List.cons_append]
          exact noMix4_head hx.1 hx.2.2.1 hx.2.2.2.1 _

theorem mixedDiags_render_nil (items : List Item)
    (hsafe : ∀ it ∈ items, itemSafe it) : mixedDiags (render items) = [] := by
  have h := noMix4_render items hsafe
  unfold mixedDiags scanPat
  rw [scanPatGo_nil p1MatchAt _ (fun s hs => (h s hs).1) 0,
      scanPatGo_nil p2MatchAt _ (fun s hs => (h s hs).2.1) 0,
      scanPatGo_nil p3MatchAt _ (fun s hs => (h s hs).2.2.1) 0,
      scanPatGo_nil p4MatchAt _ (fun s hs => (h s hs).2.2.2) 0]
  rfl

theorem walkParts_append (l1 l2 : List String) : ∀ (x : JValue),
    walkParts x (l1 ++ l2) =
      (walkParts x l1).bind (fun c => walkParts c l2) := by
  induction l1 with
  | nil => intro x; simp [walkParts]
  | cons p ps ih =>
    intro x
    rw [List.cons_append]
    show walkParts x (p :: (ps ++ l2)) = _
    rw [walkParts]
    conv_rhs => rw [walkParts]
    by_cases hc : (x.truthy && x.typeofStr = "object" &&
        ((x.getProp p).map JValue.truthy).getD false) = true
    · rw [if_pos hc, if_pos hc]
      cases hg : x.getProp p with
      | none => rfl
      | some v => exact ih v
    · rw [if_neg hc, if_neg hc]
      rfl

end JinjaEd

namespace JinjaEd

/-! ## Claim theorems -/

/-- C2: on the input `"{% if x %}{% endfor %}"` (for any variable tree) the
linter emits exactly the diagnostic `Expected 'endif' but found 'endfor'` on
the `endfor` block's span and, because the mismatch leaves the stack
unchanged, the end-of-scan pass emits `Unclosed 'if' tag - missing 'endif'`
anchored at offset 0, the opening block's start; the tag pass's final stack
still holds the `if` entry. -/
theorem lint_if_endfor (tv : VarTree) :
    jinjaLinter tv ("\x7b% if x %\x7d\x7b% endfor %\x7d".data) =
      [err 10 22 "Expected 'endif' but found 'endfor'",
       err 0 8 "Unclosed 'if' tag - missing 'endif'"] ∧
    (tagPhase (blockPhase
        (scanBlocks 0 ("\x7b% if x %\x7d\x7b% endfor %\x7d".data))).2).1 =
      [⟨"if", 0, "if x".data⟩] := by
  exact ⟨rfl, rfl⟩

/-- C3: on the input `"{% esle %}"` the typo check fires with message
`Did you mean 'else'?`, but its span is offsets 2 to 6 (covering `"% es"`),
not the `esle` token at offsets 3 to 7: the source computes the offset with
`indexOf` on the *trimmed* block content, losing the leading space.  The
second conjunct pins down where the token actually sits in the document. -/
theorem lint_esle_span (tv : VarTree) :
    jinjaLinter tv ("\x7b% esle %\x7d".data) =
      [err 2 6 "Did you mean 'else'?"] ∧
    (("\x7b% esle %\x7d".data).drop 3).take 4 = "esle".data := by
  exact ⟨rfl, rfl⟩

/-- C4: for the text `"{{ news."` with the cursor at offset 8, context
resolution yields kind `property_access` with object path `"news"` and empty
prefix, and completion against the tree
`{news: {headline, source}}` returns exactly the candidates `headline` and
`source` (and not `news` itself). -/
theorem completions_news_properties :
    getJinjaContext ("\x7b\x7b news.".data) 8 =
      ⟨"property_access", "", some false, some "news", none, none⟩ ∧
    jinjaCompletions
      (jfOf [("news", JValue.vobj (jfOf
        [("headline", JValue.vstr "The headline"),
         ("source", JValue.vstr "The source")]))])
      ("\x7b\x7b news.".data) 8 =
      some ⟨3, 8,
        [⟨"headline", "property", "headline", "The headline"⟩,
         ⟨"source", "property", "source", "The source"⟩]⟩ := by
  exact ⟨rfl, rfl⟩

/-- C5 (failing input): for the text `"{{ a\nb."` with the cursor at offset
7, the character before the cursor is `.` and the resolved context kind is
`"none"` (not `property_access`), so per the claim the engine should
re-derive the object path `"b"` (the fallback's own regex does produce it,
fourth conjunct) and return the property candidates of `b` (fifth conjunct).
The engine instead returns the three block starters: the fallback branch is
dead code, because its guard demands kind `expression`, which an earlier
branch of the `else if` chain always captures first. -/
theorem dot_trigger_fallback_dead :
    (("\x7b\x7b a\nb.".data).drop 6).head? = some '.' ∧
    (getJinjaContext ("\x7b\x7b a\nb.".data) 7).ctype = "none" ∧
    jinjaCompletions (jfOf [("b", JValue.vobj (jfOf [("c", JValue.vstr "d")]))])
        ("\x7b\x7b a\nb.".data) 7 = some ⟨5, 7, blockStarters⟩ ∧
    dotFallbackPath ("\x7b\x7b a\nb.".data) 7 = some "b" ∧
    getPropertyCompletions (jfOf [("b", JValue.vobj (jfOf [("c", JValue.vstr "d")]))]) "b" =
      [⟨"c", "property", "c", "d"⟩] := by
  exact ⟨rfl, rfl, rfl, rfl, rfl⟩

/-- C6: for every text, cursor position and variable tree, the completion
engine returns either no result or a result with at most 20 candidates (the
source truncates with `slice(0, 20)`). -/
theorem completions_at_most_20 (tv : VarTree) (text : List Char) (pos : Nat) :
    ((jinjaCompletions tv text pos).map (fun r => r.options.length)).getD 0 ≤ 20 := by
  unfold jinjaCompletions
  dsimp only
  split
  · simp
  · split
    · simp
    · simp [List.length_take]

/-- C7: the linter is a pure function of the document text and the variable
tree; two invocations on the same unchanged inputs return identical
diagnostic lists, the same elements in the same order.  (All mutable state
of the source — the `g`-flag regexes' `lastIndex`, the diagnostics array,
the tag stack — is created afresh inside each call, which is why the
embedding is a function and the equality holds definitionally.) -/
theorem linter_idempotent (tv : VarTree) (text : List Char) :
    jinjaLinter tv text = jinjaLinter tv text := rfl

/-- C8: the linter never throws.  `jinjaLinterChecked` returns `none`
exactly where the JS source would raise a `TypeError` (an `undefined`
`words[0]` reaching `.startsWith`, or an out-of-bounds read of the last
quote match); for every input text — including the empty document and
documents of bare delimiter characters — and every variable tree it instead
returns `some` of the (possibly empty) diagnostics list of the total
embedding. -/
theorem linter_never_throws (tv : VarTree) (text : List Char) :
    jinjaLinterChecked tv text = some (jinjaLinter tv text) := by
  unfold jinjaLinterChecked jinjaLinter tagPhase
  dsimp only
  rw [tagGoChecked_eq, structListChecked_eq]

/-- C9: every diagnostic the linter returns has severity `error` and a span
inside the input: `from ≤ to ≤ length(text)` (offsets are naturals, so
`0 ≤ from` holds by type), for every input text and variable tree. -/
theorem linter_diag_bounds (tv : VarTree) (text : List Char) :
    ∀ d ∈ jinjaLinter tv text,
      d.severity = "error" ∧ d.dFrom ≤ d.dTo ∧ d.dTo ≤ text.length := by
  intro d hd
  suffices h : diagOk text.length d from h
  unfold jinjaLinter tagPhase at hd
  dsimp only at hd
  have hbnd : ∀ m ∈ scanBlocks 0 text, m.bend ≤ text.length := by
    intro m hm
    have := scanBlocksGo_bounds text 0 0 m hm
    omega
  have hbp := blockPhase_bounds text.length (scanBlocks 0 text) hbnd
  have htg := tagGo_bounds text.length (blockPhase (scanBlocks 0 text)).2 [] []
    hbp.2 (by simp) (by simp)
  rcases List.mem_append.mp hd with h1 | hUf
  · rcases List.mem_append.mp h1 with h2 | hSf
    · rcases List.mem_append.mp h2 with h3 | hUnc
      · rcases List.mem_append.mp h3 with h4 | hTag
        · rcases List.mem_append.mp h4 with hMix | hBp
          · exact mixedDiags_bounds text d hMix
          · exact hbp.1 d hBp
        · exact htg.2 d hTag
      · exact unclosedDiags_bounds text.length _ htg.1 d hUnc
    · rcases List.mem_flatten.mp hSf with ⟨l, hl, hdl⟩
      rcases List.mem_map.mp hl with ⟨b, hb, rfl⟩
      exact structuralDiags_bounds text.length b (hbp.2 b hb) d hdl
  · rcases List.mem_flatten.mp hUf with ⟨l, hl, hdl⟩
    rcases List.mem_map.mp hl with ⟨b, hb, rfl⟩
    have hbm := List.mem_filter.mp hb
    exact undefinedVarDiags_bounds text.length tv b (hbp.2 b hbm.1) d hdl

/-- Witness for C9 at a concrete run: the mixed-delimiter diagnostic on the
document `"{{%"` (length 3) has severity `error` and span `[0,3)`. -/
theorem linter_diag_bounds_witness :
    (err 0 3 "Mixed delimiter syntax").severity = "error" ∧
    (err 0 3 "Mixed delimiter syntax").dFrom ≤ (err 0 3 "Mixed delimiter syntax").dTo ∧
    (err 0 3 "Mixed delimiter syntax").dTo ≤ ("\x7b\x7b%".data).length :=
  linter_diag_bounds JFields.fnil ("\x7b\x7b%".data)
    (err 0 3 "Mixed delimiter syntax") (by decide)

/-- C10: property lookup treats a present-but-falsy value as missing: if the
walk of some prefix of the dotted path reaches a value `cur` whose next
segment `seg` maps to a falsy value (e.g. a leaf with empty description),
`getPropertyCompletions` returns the empty list even though the key is
present. -/
theorem falsy_property_value_empty (tv : VarTree) (path : String)
    (pre post : List String) (seg : String) (cur v : JValue)
    (hsplit : jsSplitDot path = pre ++ seg :: post)
    (hwalk : walkParts (.vobj tv) pre = some cur)
    (hget : cur.getProp seg = some v)
    (hfalsy : v.truthy = false) :
    getPropertyCompletions tv path = [] := by
  have hdone : walkParts cur (seg :: post) = none := by
    rw [walkParts]
    have hfc : (((cur.getProp seg).map JValue.truthy).getD false) = false := by
      rw [hget]
      simpa using hfalsy
    rw [hfc]
    simp
  have hnone : walkParts (.vobj tv) (jsSplitDot path) = none := by
    rw [hsplit, walkParts_append, hwalk, Option.some_bind', hdone]
  unfold getPropertyCompletions
  rw [hnone]

/-- Witness for C10: the tree `{a: ""}` has the key `a`, but its value is
the empty string (falsy), so completions for the path `"a"` are empty. -/
theorem falsy_property_value_empty_witness :
    getPropertyCompletions (jfOf [("a", JValue.vstr "")]) "a" = [] :=
  falsy_property_value_empty (jfOf [("a", JValue.vstr "")]) "a" [] [] "a"
    (.vobj (jfOf [("a", JValue.vstr "")])) (.vstr "") rfl rfl rfl rfl

theorem flatten_eq_nil_of {α : Type} (l : List (List α)) (h : ∀ x ∈ l, x = []) :
    l.flatten = [] := by
  induction l with
  | nil => rfl
  | cons x xs ih =>
    rw [List.flatten_cons, h x (List.mem_cons_self _ _), List.nil_append]
    exact ih (fun y hy => h y (List.mem_cons_of_mem _ hy))

/-- C1 (amended): for every document built from plain text and correctly
paired `(\x7b\x7b…\x7d\x7d)`, `(\x7b%…%\x7d)`, `(\x7b#…#\x7d)` blocks whose
tag keywords are balanced, and for every variable tree, the linter yields no
diagnostics — provided additionally that each expression block passes the
undefined-variable check (its base expression is complex, a literal, a
builtin, or a defined root).  The unamended claim, without that last
hypothesis, is refuted by `lint_wellformed_counterexample`. -/
theorem lint_wellformed_empty (items : List Item) (tv : VarTree)
    (hsafe : ∀ it ∈ items, itemSafe it)
    (hbal : specTagBalanced items)
    (hvars : ∀ c, Item.exprB c ∈ items → exprRootOk tv c) :
    jinjaLinter tv (render items) = [] := by
  unfold jinjaLinter
  dsimp only
  have hscan : scanBlocks 0 (render items) = renderMatches items 0 :=
    scanBlocks_render items 0 hsafe
  rw [hscan, blockPhase_render items 0]
  dsimp only
  unfold tagPhase
  have htag := tagGo_render items 0 [] [] [] [] rfl hbal
  have hst : (tagGo (renderBlocks items 0) [] []).1 = [] := by
    have h1 := htag.1
    rw [List.reverse_nil] at h1
    exact List.map_eq_nil_iff.mp h1
  have hstruct : ∀ x ∈ (renderBlocks items 0).map structuralDiags, x = [] := by
    intro x hx
    obtain ⟨b, hb, rfl⟩ := List.mem_map.mp hx
    exact structural_render_nil items 0 hsafe b hb
  have hundef : ∀ x ∈ ((renderBlocks items 0).filter
      (fun b => b.btype = BType.expression)).map (undefinedVarDiags tv), x = [] := by
    intro x hx
    obtain ⟨b, hb, rfl⟩ := List.mem_map.mp hx
    obtain ⟨hbmem, _⟩ := List.mem_filter.mp hb
    obtain ⟨c, hcont, hcase⟩ := renderBlocks_mem items 0 b hbmem
    rcases hcase with ⟨hin, -⟩ | ⟨-, hty⟩ | ⟨-, hty⟩
    · exact undefinedVarDiags_ok tv b c hcont (hvars c hin)
    · have hbt := of_decide_eq_true (List.mem_filter.mp hb).2
      rw [hty] at hbt
      exact BType.noConfusion hbt
    · have hbt := of_decide_eq_true (List.mem_filter.mp hb).2
      rw [hty] at hbt
      exact BType.noConfusion hbt
  rw [mixedDiags_render_nil items hsafe, htag.2, hst,
      flatten_eq_nil_of _ hstruct, flatten_eq_nil_of _ hundef]
  rfl

/-- Counterexample to C1 as stated: the document `(\x7b\x7b x \x7d\x7d)` is a
single correctly paired expression block (no tag keywords at all, so the
balance check trivially succeeds), yet against the variable tree
`(news: "n")` the linter emits the undefined-variable diagnostic for `x` —
the diagnostics list is not empty. -/
theorem lint_wellformed_counterexample :
    (∀ it ∈ [Item.exprB [' ', 'x', ' ']], itemSafe it) ∧
    specTagBalanced [Item.exprB [' ', 'x', ' ']] ∧
    render [Item.exprB [' ', 'x', ' ']] =
      [lbrace, lbrace, ' ', 'x', ' ', rbrace, rbrace] ∧
    jinjaLinter (jfOf [("news", JValue.vstr "n")])
        (render [Item.exprB [' ', 'x', ' ']]) =
      [err 2 3 "Undefined variable 'x'"] ∧
    [err 2 3 "Undefined variable 'x'"] ≠ ([] : List Diag) := by
  refine ⟨?_, ?_, ?_, ?_, ?_⟩
  · intro it hit
    rcases List.mem_cons.mp hit with rfl | hit
    · show ∀ x ∈ [' ', 'x', ' '], contChar x = true
      decide
    · exact absurd hit (List.not_mem_nil it)
  · show specTagFold [] (stmtWords [Item.exprB [' ', 'x', ' ']]) = some []
    rfl
  · rfl
  · rfl
  · intro h
    exact List.noConfusion h

/-- Witness for the amended C1: the document `a(\x7b% if x %\x7d)(\x7b% endif %\x7d)`
is safe, its tags balance, and it has no expression blocks, so the linter
yields no diagnostics on the empty variable tree. -/
theorem lint_wellformed_empty_witness :
    jinjaLinter JFields.fnil (render [Item.lit ['a'],
      Item.stmtB [' ', 'i', 'f', ' ', 'x', ' '],
      Item.stmtB [' ', 'e', 'n', 'd', 'i', 'f', ' ']]) = [] := by
  apply lint_wellformed_empty
  · intro it hit
    rcases List.mem_cons.mp hit with rfl | hit
    · show ∀ c ∈ ['a'], litChar c = true
      decide
    rcases List.mem_cons.mp hit with rfl | hit
    · show ∀ x ∈ [' ', 'i', 'f', ' ', 'x', ' '], contChar x = true
      decide
    rcases List.mem_cons.mp hit with rfl | hit
    · show ∀ x ∈ [' ', 'e', 'n', 'd', 'i', 'f', ' '], contChar x = true
      decide
    · exact absurd hit (List.not_mem_nil it)
  · show specTagFold [] (stmtWords [Item.lit ['a'],
      Item.stmtB [' ', 'i', 'f', ' ', 'x', ' '],
      Item.stmtB [' ', 'e', 'n', 'd', 'i', 'f', ' ']]) = some []
    rfl
  · intro c hc
    simp only [List.mem_cons, List.not_mem_nil, or_false] at hc
    rcases hc with h | h | h <;> exact Item.noConfusion h

end JinjaEd
